import Mathlib

/-!
Verification of the toroidal cellular-automaton substrate
(files src/torus.rs and src/cell.rs of the quantized-interactions repository).

The Rust code is shallowly embedded: coordinate vectors and dimension vectors
become `List Nat`, fallible operations return `Except String`, the per-cell
neighbor sets (HashSet of reference-counted cells, deduplicated by cell id)
become a function from cell index to `Finset Nat`, and a cell
generation-to-state HashMap becomes a function `Gen → Option S`.
Cells are identified by their creation index (the Uuid of each cell is fresh,
so two distinct cells never compare equal).  Rust panics (failed asserts,
todo arms, out-of-bounds indexing) are modeled as `Except.error`.
-/

namespace QuantTorus

/-- Product of a dimension vector, structural form (the empty product is 1).
Mirrors the cardinality loop in Torus::new (torus.rs lines 39-42):
multiplication is associative and commutative, so the left fold starting
from 1 equals this right fold. -/
def prodL : List Nat → Nat
  | [] => 1
  | d :: ds => d * prodL ds

/-- The cardinality accumulator exactly as Torus::new computes it. -/
def cardinality (dims : List Nat) : Nat := dims.foldl (· * ·) 1

theorem foldl_mul_eq (l : List Nat) : ∀ a : Nat, l.foldl (· * ·) a = a * prodL l := by
  induction l with
  | nil => intro a; simp [prodL]
  | cons d ds ih => intro a; simp only [List.foldl_cons, prodL]; rw [ih]; ring

theorem cardinality_eq_prodL (dims : List Nat) : cardinality dims = prodL dims := by
  simpa using foldl_mul_eq dims 1

/-- Inner Horner loop of get_index (torus.rs lines 287-292): each iteration
performs result = result * dims[offset] + co_ordinates[offset + 1]; the pair
list carries (dims[offset], co_ordinates[offset + 1]) in iteration order. -/
def gi_loop : Nat → List (Nat × Nat) → Nat
  | r, [] => r
  | r, (d, c) :: rest => gi_loop (r * d + c) rest

/-- get_index from torus.rs (lines 278-294).  Fails when the coordinate
vector and the dimension vector have different lengths; for equal nonzero
lengths it returns the Horner evaluation above.  For two empty vectors the
Rust code reads co_ordinates[0] and panics; the panic is modeled as an
error. -/
def get_index (co_ordinates dimensions : List Nat) : Except String Nat :=
  if co_ordinates.length = dimensions.length then
    match co_ordinates with
    | [] => .error "index out of bounds"
    | c0 :: cs => .ok (gi_loop c0 (dimensions.zip cs))
  else
    .error "Sizes differ"

/-- Row-major linear index of a coordinate vector (last axis varies fastest):
the order in which create_cells (torus.rs lines 154-186) lays out the cells. -/
def rowIndex : List Nat → List Nat → Nat
  | c :: cs, _ :: ds => c * prodL ds + rowIndex cs ds
  | _, _ => 0

/-- Row-major decoding of a linear index into a coordinate vector. -/
def decode : List Nat → Nat → List Nat
  | [], _ => []
  | _ :: ds, m => m / prodL ds :: decode ds (m % prodL ds)

/-- Boolean in-bounds check: same length and componentwise strictly below
the dimension vector. -/
def inB : List Nat → List Nat → Bool
  | [], [] => true
  | c :: cs, d :: ds => decide (c < d) && inB cs ds
  | _, _ => false

theorem inB_length {c dims : List Nat} (h : inB c dims = true) :
    c.length = dims.length := by
  induction c generalizing dims with
  | nil => cases dims with
    | nil => rfl
    | cons d ds => simp [inB] at h
  | cons x cs ih => cases dims with
    | nil => simp [inB] at h
    | cons d ds =>
      simp only [inB, Bool.and_eq_true, decide_eq_true_eq] at h
      simp [ih h.2]

theorem inB_pos {c dims : List Nat} (h : inB c dims = true) :
    ∀ d ∈ dims, 0 < d := by
  induction c generalizing dims with
  | nil => cases dims with
    | nil => intro d hd; simp at hd
    | cons d ds => simp [inB] at h
  | cons x cs ih => cases dims with
    | nil => simp [inB] at h
    | cons d ds =>
      simp only [inB, Bool.and_eq_true, decide_eq_true_eq] at h
      intro e he
      rcases List.mem_cons.mp he with rfl | he
      · omega
      · exact ih h.2 e he

theorem prodL_pos {dims : List Nat} (h : ∀ d ∈ dims, 0 < d) : 0 < prodL dims := by
  induction dims with
  | nil => simp [prodL]
  | cons d ds ih =>
    simp only [prodL]
    exact Nat.mul_pos (h d (by simp)) (ih fun e he => h e (by simp [he]))

theorem inB_prodL_pos {c dims : List Nat} (h : inB c dims = true) : 0 < prodL dims :=
  prodL_pos (inB_pos h)

/-- The row-major index of an in-bounds coordinate vector is below the
product of the dimensions. -/
theorem rowIndex_lt {c dims : List Nat} (h : inB c dims = true) :
    rowIndex c dims < prodL dims := by
  induction c generalizing dims with
  | nil => cases dims with
    | nil => simp [rowIndex, prodL]
    | cons d ds => simp [inB] at h
  | cons x cs ih => cases dims with
    | nil => simp [inB] at h
    | cons d ds =>
      simp only [inB, Bool.and_eq_true, decide_eq_true_eq] at h
      have h1 : rowIndex cs ds < prodL ds := ih h.2
      have h2 : 0 < prodL ds := inB_prodL_pos h.2
      simp only [rowIndex, prodL]
      calc x * prodL ds + rowIndex cs ds < x * prodL ds + prodL ds := by omega
        _ = (x + 1) * prodL ds := by ring
        _ ≤ d * prodL ds := Nat.mul_le_mul_right _ h.1

/-- Decoding inverts the row-major encoding on in-bounds coordinates. -/
theorem decode_rowIndex {c dims : List Nat} (h : inB c dims = true) :
    decode dims (rowIndex c dims) = c := by
  induction c generalizing dims with
  | nil => cases dims with
    | nil => simp [decode, rowIndex]
    | cons d ds => simp [inB] at h
  | cons x cs ih => cases dims with
    | nil => simp [inB] at h
    | cons d ds =>
      simp only [inB, Bool.and_eq_true, decide_eq_true_eq] at h
      have hP : 0 < prodL ds := inB_prodL_pos h.2
      have hlt : rowIndex cs ds < prodL ds := rowIndex_lt h.2
      simp only [decode, rowIndex]
      have h1 : (x * prodL ds + rowIndex cs ds) / prodL ds = x := by
        rw [Nat.mul_comm, Nat.mul_add_div hP, Nat.div_eq_of_lt hlt, Nat.add_zero]
      have h2 : (x * prodL ds + rowIndex cs ds) % prodL ds = rowIndex cs ds := by
        rw [Nat.mul_comm, Nat.mul_add_mod, Nat.mod_eq_of_lt hlt]
      rw [h1, h2, ih h.2]

/-- Encoding inverts the row-major decoding on indices below the product. -/
theorem rowIndex_decode {dims : List Nat} (hpos : ∀ d ∈ dims, 0 < d) :
    ∀ m, m < prodL dims →
      inB (decode dims m) dims = true ∧ rowIndex (decode dims m) dims = m := by
  induction dims with
  | nil => intro m hm; simp [prodL] at hm; simp [hm, decode, rowIndex, inB]
  | cons d ds ih =>
    intro m hm
    have hP : 0 < prodL ds := prodL_pos fun e he => hpos e (by simp [he])
    have hd : 0 < d := hpos d (by simp)
    simp only [prodL] at hm
    have hmod : m % prodL ds < prodL ds := Nat.mod_lt _ hP
    have hdiv : m / prodL ds < d := by
      rw [Nat.div_lt_iff_lt_mul hP]; omega
    obtain ⟨hin, hrw⟩ := ih (fun e he => hpos e (by simp [he])) (m % prodL ds) hmod
    refine ⟨?_, ?_⟩
    · simp [decode, inB, hdiv, hin]
    · simp only [decode, rowIndex, hrw]
      rw [Nat.mul_comm]
      exact Nat.div_add_mod m (prodL ds)

/-- In-bounds coordinate vectors with the same row-major index are equal. -/
theorem rowIndex_inj {c c' dims : List Nat} (h : inB c dims = true)
    (h' : inB c' dims = true) (he : rowIndex c dims = rowIndex c' dims) : c = c' := by
  have := decode_rowIndex h
  rw [he, decode_rowIndex h'] at this
  exact this.symm

/-- Helper: zipping a replicated list against a shorter list pairs the
constant with every element. -/
theorem replicate_zip {d : Nat} : ∀ (cs : List Nat) (k : Nat), cs.length ≤ k →
    (List.replicate k d).zip cs = cs.map (fun c => (d, c)) := by
  intro cs
  induction cs with
  | nil => intro k _; simp
  | cons c cs ih =>
    intro k hk
    cases k with
    | zero => simp at hk
    | succ k =>
      simp only [List.replicate_succ, List.zip_cons_cons, List.map_cons]
      rw [ih k (by simpa using hk)]

theorem gi_loop_append (l₁ l₂ : List (Nat × Nat)) :
    ∀ r, gi_loop r (l₁ ++ l₂) = gi_loop (gi_loop r l₁) l₂ := by
  induction l₁ with
  | nil => intro r; rfl
  | cons p l₁ ih => intro r; cases p; simp only [List.cons_append, gi_loop]; exact ih _

/-- The Horner loop of get_index, fed dims[0..n-2] against co[1..n-1],
computes the row-major index over the shifted radix vector
(1, dims[0], ..., dims[n-2]). -/
theorem gi_loop_rowIndex : ∀ (ds cs : List Nat) (r : Nat), ds.length = cs.length →
    gi_loop r (ds.zip cs) = rowIndex (r :: cs) (1 :: ds) := by
  intro ds
  induction ds with
  | nil =>
    intro cs r h
    cases cs with
    | nil => simp [gi_loop, rowIndex, prodL]
    | cons c cs => simp at h
  | cons d ds ih =>
    intro cs r h
    cases cs with
    | nil => simp at h
    | cons c cs =>
      rw [show (d :: ds).zip (c :: cs) = (d, c) :: ds.zip cs from rfl]
      rw [show gi_loop r ((d, c) :: ds.zip cs) = gi_loop (r * d + c) (ds.zip cs) from rfl]
      rw [ih cs (r * d + c) (by simpa using h)]
      simp only [rowIndex, prodL]
      ring

/-- Zipping against a strictly longer list never consumes its last element. -/
theorem zip_eq_zip_dropLast : ∀ (cs ds : List Nat), cs.length < ds.length →
    ds.zip cs = (ds.dropLast).zip cs := by
  intro cs
  induction cs with
  | nil => intro ds _; simp
  | cons c cs ih =>
    intro ds hlen
    match ds with
    | [] => simp at hlen
    | [d] => simp at hlen
    | d :: d' :: ds' =>
      rw [show (d :: d' :: ds').dropLast = d :: (d' :: ds').dropLast from rfl]
      rw [show (d :: d' :: ds').zip (c :: cs) = (d, c) :: (d' :: ds').zip cs from rfl]
      rw [show (d :: (d' :: ds').dropLast).zip (c :: cs)
            = (d, c) :: ((d' :: ds').dropLast).zip cs from rfl]
      rw [ih (d' :: ds') (by simpa using hlen)]

/-- Closed form of get_index: on a coordinate vector of matching nonzero
length it returns Ok of the row-major index computed against the radix
vector (1, dims[0], ..., dims[n-2]) — i.e. the dimension vector shifted
one place to the right with its last entry dropped, not the dimension
vector itself. -/
theorem get_index_closed (dims c : List Nat) (hne : dims ≠ [])
    (hlen : c.length = dims.length) :
    get_index c dims = .ok (rowIndex c (1 :: dims.dropLast)) := by
  cases c with
  | nil =>
    cases dims with
    | nil => exact absurd rfl hne
    | cons d ds => simp at hlen
  | cons c0 cs =>
    have hcs : cs.length + 1 = dims.length := by simpa using hlen
    simp only [get_index, if_pos hlen]
    rw [zip_eq_zip_dropLast cs dims (by omega)]
    rw [gi_loop_rowIndex _ _ _ (by simp [List.length_dropLast]; omega)]

/-- Modelled from the spec: the least-significant-first mixed-radix
encoding that section 4.3 of the specification claims get_index computes:
index = c[0] + c[1]*dims[0] + c[2]*dims[0]*dims[1] + ... -/
def lsfIndex : List Nat → List Nat → Nat
  | [], _ => 0
  | c :: _, [] => c
  | c :: cs, d :: ds => c + d * lsfIndex cs ds

/-- One odometer step over a coordinate buffer, exactly the carry loop of
next_co_ordinates (torus.rs lines 261-276): increment the last axis; on
reaching the extent reset it to 0 and carry into the previous axis; a carry
out of axis 0 leaves all zeros.  The Bool is the carry flag. -/
def incr : List Nat → List Nat → List Nat × Bool
  | [], _ => ([], true)
  | c :: cs, [] => (c :: cs, true)
  | c :: cs, d :: ds =>
    match incr cs ds with
    | (cs', true) => if c + 1 < d then ((c + 1) :: cs', false) else (0 :: cs', true)
    | (cs', false) => (c :: cs', false)

/-- next_co_ordinates from torus.rs (lines 261-276). -/
def next_co_ordinates (co_ordinates dimensions : List Nat) : List Nat :=
  (incr co_ordinates dimensions).1

theorem decode_zero {dims : List Nat} (hpos : ∀ d ∈ dims, 0 < d) :
    decode dims 0 = List.replicate dims.length 0 := by
  induction dims with
  | nil => simp [decode]
  | cons d ds ih =>
    have hP : 0 < prodL ds := prodL_pos fun e he => hpos e (by simp [he])
    simp only [decode, List.length_cons, List.replicate_succ]
    rw [Nat.zero_div, Nat.zero_mod, ih fun e he => hpos e (by simp [he])]

/-- The odometer step decodes to the successor index: on an in-bounds
coordinate vector, incr either advances to the decoding of the next linear
index (no carry) or, from the all-maximal vector, wraps to all zeros with a
carry out. -/
theorem incr_spec : ∀ (dims c : List Nat), inB c dims = true →
    incr c dims = (if rowIndex c dims + 1 < prodL dims
      then (decode dims (rowIndex c dims + 1), false)
      else (List.replicate dims.length 0, true)) := by
  intro dims
  induction dims with
  | nil =>
    intro c h
    cases c with
    | nil => simp [incr, rowIndex, prodL]
    | cons x cs => simp [inB] at h
  | cons d ds ih =>
    intro c h
    cases c with
    | nil => simp [inB] at h
    | cons x cs =>
      simp only [inB, Bool.and_eq_true, decide_eq_true_eq] at h
      have hP : 0 < prodL ds := inB_prodL_pos h.2
      have hlt : rowIndex cs ds < prodL ds := rowIndex_lt h.2
      have hrec := ih cs h.2
      by_cases hc : rowIndex cs ds + 1 < prodL ds
      · have hrec' : incr cs ds = (decode ds (rowIndex cs ds + 1), false) := by
          rw [hrec, if_pos hc]
        simp only [incr, hrec']
        have htot : rowIndex (x :: cs) (d :: ds) + 1 < prodL (d :: ds) := by
          simp only [rowIndex, prodL]
          have : (x + 1) * prodL ds ≤ d * prodL ds := Nat.mul_le_mul_right _ h.1
          nlinarith
        rw [if_pos htot]
        simp only [decode, rowIndex]
        have h1 : (x * prodL ds + rowIndex cs ds + 1) / prodL ds = x := by
          rw [Nat.add_assoc, Nat.mul_comm, Nat.mul_add_div hP,
            Nat.div_eq_of_lt (by omega), Nat.add_zero]
        have h2 : (x * prodL ds + rowIndex cs ds + 1) % prodL ds
            = rowIndex cs ds + 1 := by
          rw [Nat.add_assoc, Nat.mul_comm, Nat.mul_add_mod, Nat.mod_eq_of_lt (by omega)]
        rw [h1, h2]
      · have hrec' : incr cs ds = (List.replicate ds.length 0, true) := by
          rw [hrec, if_neg hc]
        simp only [incr, hrec']
        have hmax : rowIndex cs ds + 1 = prodL ds := by omega
        by_cases hx : x + 1 < d
        · rw [if_pos hx]
          have htot : rowIndex (x :: cs) (d :: ds) + 1 < prodL (d :: ds) := by
            simp only [rowIndex, prodL]
            have : (x + 1 + 1) * prodL ds ≤ d * prodL ds := Nat.mul_le_mul_right _ hx
            nlinarith
          rw [if_pos htot]
          simp only [decode, rowIndex]
          have hval : x * prodL ds + rowIndex cs ds + 1 = (x + 1) * prodL ds := by
            rw [Nat.add_assoc, hmax]; ring
          have h1 : (x * prodL ds + rowIndex cs ds + 1) / prodL ds = x + 1 := by
            rw [hval, Nat.mul_div_cancel _ hP]
          have h2 : (x * prodL ds + rowIndex cs ds + 1) % prodL ds = 0 := by
            rw [hval, Nat.mul_mod_left]
          rw [h1, h2, decode_zero (inB_pos h.2)]
        · rw [if_neg hx]
          have hxd : x + 1 = d := by omega
          have htot : ¬ (rowIndex (x :: cs) (d :: ds) + 1 < prodL (d :: ds)) := by
            simp only [rowIndex, prodL]
            have hval : x * prodL ds + rowIndex cs ds + 1 = (x + 1) * prodL ds := by
              rw [Nat.add_assoc, hmax]; ring
            rw [hval, hxd]
            omega
          rw [if_neg htot]
          simp [List.replicate_succ]

/-- create_cells (torus.rs lines 154-186) restricted to the coordinate
vectors it enumerates: depth-first over axis 0 first, so the resulting list
is in row-major order.  The created cell at position i carries the state
initializer applied to the i-th coordinate vector; only the coordinates
matter for the claims, so the model returns them. -/
def create_cells : List Nat → List (List Nat)
  | [] => []
  | [d] => (List.range d).map (fun i => [i])
  | d :: ds => (List.range d).foldr (fun i acc => ((create_cells ds).map (i :: ·)) ++ acc) []

theorem create_cells_cons₂ (d d' : Nat) (ds : List Nat) :
    create_cells (d :: d' :: ds)
      = (List.range d).foldr (fun i acc => ((create_cells (d' :: ds)).map (i :: ·)) ++ acc) [] :=
  rfl

theorem foldr_prepend_length (subs : List (List Nat)) :
    ∀ is : List Nat,
      ((is.foldr (fun i acc => (subs.map (i :: ·)) ++ acc) []).length)
        = is.length * subs.length := by
  intro is
  induction is with
  | nil => simp
  | cons i is ih => simp [List.foldr_cons, ih]; ring

/-- The number of cells created for a nonempty dimension vector is the
product of the dimensions. -/
theorem create_cells_length : ∀ (dims : List Nat), dims ≠ [] →
    (create_cells dims).length = prodL dims := by
  intro dims
  match dims with
  | [] => intro h; exact absurd rfl h
  | [d] => intro _; simp [create_cells, prodL]
  | d :: d' :: ds =>
    intro _
    rw [create_cells_cons₂, foldr_prepend_length]
    rw [create_cells_length (d' :: ds) (by simp)]
    simp [prodL]

/-- A zero extent in any axis produces no cells at all. -/
theorem create_cells_zero : ∀ (dims : List Nat), 0 ∈ dims → create_cells dims = [] := by
  intro dims
  match dims with
  | [] => intro h; simp at h
  | [d] =>
    intro h
    simp only [List.mem_singleton] at h
    subst h
    simp [create_cells]
  | d :: d' :: ds =>
    intro h
    rw [create_cells_cons₂]
    rcases List.mem_cons.mp h with rfl | h'
    · simp
    · have hz : create_cells (d' :: ds) = [] := create_cells_zero (d' :: ds) h'
      rw [hz]
      induction (List.range d) with
      | nil => simp
      | cons i is ih => simp only [List.foldr_cons, List.map_nil, List.nil_append]; exact ih

/-- connect_cells from cell.rs (lines 154-167): inserts the cell that into
the neighbor set of the cell self.  The HashSet deduplicates by cell id;
the model keys cells by their creation index. -/
def connect_cells {α : Type} [DecidableEq α] (f : α → Finset α) (self other : α) :
    α → Finset α :=
  fun x => if x = self then insert other (f x) else f x

/-- Cell::join from cell.rs (lines 125-130): connect_cells(self, other)
followed by connect_cells(other, self). -/
def join {α : Type} [DecidableEq α] (f : α → Finset α) (self other : α) : α → Finset α :=
  connect_cells (connect_cells f self other) other self

theorem mem_connect_cells {α : Type} [DecidableEq α] (f : α → Finset α) (a b x y : α) :
    x ∈ connect_cells f a b y ↔ x ∈ f y ∨ (y = a ∧ x = b) := by
  unfold connect_cells
  by_cases hy : y = a
  · simp [hy]; tauto
  · simp [hy]

theorem mem_join {α : Type} [DecidableEq α] (f : α → Finset α) (a b x y : α) :
    x ∈ join f a b y ↔ x ∈ f y ∨ (y = a ∧ x = b) ∨ (y = b ∧ x = a) := by
  unfold join
  rw [mem_connect_cells, mem_connect_cells]
  tauto

/-- The neighbor coordinate used by connect_orthogonally (torus.rs line 211):
other[k] = (co_ordinates[k] + d) % dimensions[k]. -/
def offsetCoord (dims c : List Nat) (k δ : Nat) : List Nat :=
  c.set k ((c.getD k 0 + δ) % dims.getD k 0)

/-- The two neighbor coordinates along one axis, in the iteration order of
the inner loop of connect_orthogonally (d ranges over dims[k] - 1 then 1). -/
def axisOffsets (dims c : List Nat) (k : Nat) : List (List Nat) :=
  [offsetCoord dims c k (dims.getD k 0 - 1), offsetCoord dims c k 1]

def offsetsOver (dims c : List Nat) : List Nat → List (List Nat)
  | [] => []
  | k :: ks => axisOffsets dims c k ++ offsetsOver dims c ks

/-- All 2n neighbor coordinates of the cell at coordinates c under
Orthogonal tiling. -/
def orthOffsets (dims c : List Nat) : List (List Nat) :=
  offsetsOver dims c (List.range dims.length)

/-- The row-major indices of the orthogonal neighbor coordinates. -/
def orthTargets (dims c : List Nat) : List Nat :=
  (orthOffsets dims c).map (fun o => rowIndex o dims)

/-- Inner double loop of connect_orthogonally (torus.rs lines 208-219) for
one cell i at coordinates co: for each axis k join i with the cells at
offsets dims[k] - 1 and 1 along k. -/
def axisJoins (dims co : List Nat) (i k : Nat) (f : Nat → Finset Nat) :
    Except String (Nat → Finset Nat) :=
  match get_index (offsetCoord dims co k (dims.getD k 0 - 1)) dims with
  | .error e => .error e
  | .ok i1 =>
    match get_index (offsetCoord dims co k 1) dims with
    | .error e => .error e
    | .ok i2 => .ok (join (join f i i1) i i2)

def orthAxes (dims co : List Nat) (i : Nat) :
    List Nat → (Nat → Finset Nat) → Except String (Nat → Finset Nat)
  | [], f => .ok f
  | k :: ks, f =>
    match axisJoins dims co i k f with
    | .ok f' => orthAxes dims co i ks f'
    | .error e => .error e

/-- Cell sweep of connect_orthogonally (torus.rs lines 198-224): fuel counts
the remaining cells, i is the current flat index, co the current coordinate
vector.  Each step first evaluates the assert
get_index(co_ordinates, dimensions)? == i (a failed assert is a panic,
modeled as an error), then joins the cell with its orthogonal neighbors,
then advances the odometer. -/
def orthLoop (dims : List Nat) :
    Nat → Nat → List Nat → (Nat → Finset Nat) → Except String (Nat → Finset Nat)
  | 0, _, _, f => .ok f
  | fuel + 1, i, co, f =>
    match get_index co dims with
    | .error e => .error e
    | .ok v =>
      if v = i then
        match orthAxes dims co i (List.range dims.length) f with
        | .ok f' => orthLoop dims fuel (i + 1) (next_co_ordinates co dims) f'
        | .error e => .error e
      else .error "assertion failed"

def connect_orthogonally (dims : List Nat) (numCells : Nat) (f : Nat → Finset Nat) :
    Except String (Nat → Finset Nat) :=
  orthLoop dims numCells 0 (List.replicate dims.length 0) f

/-- Corner coordinate of connect_diagonally (torus.rs lines 237-248): bit k
of c selects offset 1, a clear bit selects dims[k] - 1. -/
def corner_co (dims co : List Nat) (c : Nat) : List Nat :=
  (List.range dims.length).map (fun k =>
    (co.getD k 0 + (if (c >>> k) % 2 = 1 then 1 else dims.getD k 0 - 1)) % dims.getD k 0)

def diagCorners (dims co : List Nat) (i : Nat) :
    List Nat → (Nat → Finset Nat) → Except String (Nat → Finset Nat)
  | [], f => .ok f
  | c :: cs, f =>
    match get_index (corner_co dims co c) dims with
    | .error e => .error e
    | .ok ci => diagCorners dims co i cs (join f i ci)

/-- Cell sweep of connect_diagonally (torus.rs lines 226-259), same assert
discipline as the orthogonal sweep; joins each cell with its 2^n hypercube
corner cells. -/
def diagLoop (dims : List Nat) :
    Nat → Nat → List Nat → (Nat → Finset Nat) → Except String (Nat → Finset Nat)
  | 0, _, _, f => .ok f
  | fuel + 1, i, co, f =>
    match get_index co dims with
    | .error e => .error e
    | .ok v =>
      if v = i then
        match diagCorners dims co i (List.range (2 ^ dims.length)) f with
        | .ok f' => diagLoop dims fuel (i + 1) (next_co_ordinates co dims) f'
        | .error e => .error e
      else .error "assertion failed"

def connect_diagonally (dims : List Nat) (numCells : Nat) (f : Nat → Finset Nat) :
    Except String (Nat → Finset Nat) :=
  diagLoop dims numCells 0 (List.replicate dims.length 0) f

/-- connect_orthogonally_and_diagonally from torus.rs (lines 188-196). -/
def connect_orthogonally_and_diagonally (dims : List Nat) (numCells : Nat)
    (f : Nat → Finset Nat) : Except String (Nat → Finset Nat) :=
  match connect_orthogonally dims numCells f with
  | .ok f1 => connect_diagonally dims numCells f1
  | .error e => .error e

/-- Cell sweep of connect_hexagons (torus.rs lines 334-375). -/
def hexLoop (dims : List Nat) :
    Nat → Nat → List Nat → (Nat → Finset Nat) → Except String (Nat → Finset Nat)
  | 0, _, _, f => .ok f
  | fuel + 1, i, co, f =>
    match get_index co dims with
    | .error e => .error e
    | .ok v =>
      if v = i then
        let height := dims.getD 0 0
        let width := dims.getD 1 0
        let y := (co.getD 0 0 + 1) % height
        let offset := width - (co.getD 0 0) % 2
        let lx := (co.getD 1 0 + offset) % width
        let rx := (co.getD 1 0 + offset + 1) % width
        let ax := (co.getD 1 0 + 1) % width
        match get_index [y, lx] dims with
        | .error e => .error e
        | .ok li =>
          match get_index [y, rx] dims with
          | .error e => .error e
          | .ok ri =>
            match get_index [co.getD 0 0, ax] dims with
            | .error e => .error e
            | .ok ni =>
              hexLoop dims fuel (i + 1) (next_co_ordinates co dims)
                (join (join (join f i li) i ri) i ni)
      else .error "assertion failed"

/-- connect_hexagons from torus.rs (lines 323-377): dimensionality and
evenness preconditions, then the cell sweep. -/
def connect_hexagons (dims : List Nat) (numCells : Nat) (f : Nat → Finset Nat) :
    Except String (Nat → Finset Nat) :=
  if dims.length ≠ 2 then
    .error "Tiling with triangles is only possible in 2-D"
  else if dims.getD 0 0 % 2 = 1 ∨ dims.getD 1 0 % 2 = 1 then
    .error "Tiling with triangles is only possible if both dimensions are even"
  else
    hexLoop dims numCells 0 [0, 0] f

/-- The Tiling enum from torus.rs (lines 13-21). -/
inductive Tiling where
  | Orthogonal
  | OrthogonalAndDiagonal
  | AdjacentTriangles
  | TouchingTriangles
  | Hexagons

/-- The Torus struct from torus.rs (lines 23-27); cells are represented by
their coordinate vectors in creation order, and the per-cell neighbor
HashSets by one function from cell index to neighbor-index set. -/
structure Torus where
  tiling : Tiling
  dimensions : List Nat
  cells : List (List Nat)
  neighbors : Nat → Finset Nat

/-- Torus::new from torus.rs (lines 30-68): create the cells, then run the
wiring pass selected by the tiling.  The two triangle tilings hit the
todo!() arm, which panics; modeled as an error. -/
def Torus.new (tiling : Tiling) (dimensions : List Nat) : Except String Torus :=
  let cells := create_cells dimensions
  let conn : Except String (Nat → Finset Nat) :=
    match tiling with
    | .Orthogonal => connect_orthogonally dimensions cells.length (fun _ => ∅)
    | .OrthogonalAndDiagonal =>
      connect_orthogonally_and_diagonally dimensions cells.length (fun _ => ∅)
    | .Hexagons => connect_hexagons dimensions cells.length (fun _ => ∅)
    | _ => .error "not yet implemented"
  match conn with
  | .ok f => .ok ⟨tiling, dimensions, cells, f⟩
  | .error e => .error e

/-- Space::regions for the torus (torus.rs lines 114-116): the torus itself
is the sole region. -/
def Torus.regions (T : Torus) : List Torus := [T]

/-- Region::locations for the torus (torus.rs lines 102-104): a clone of
the cell vector. -/
def Torus.locations (T : Torus) : List (List Nat) := T.cells

/-- Space::reduce for the torus (torus.rs lines 118-129): fold f over every
(region, location) pair. -/
def Torus.reduce {α : Type} (T : Torus) (init : α) (f : Torus → List Nat → α → α) : α :=
  T.regions.foldl
    (fun acc region => region.locations.foldl (fun acc loc => f region loc acc) acc) init

/-- HashMap::insert on the generation-to-state map. -/
def hinsert {Gen S : Type} [DecidableEq Gen] (m : Gen → Option S) (g : Gen) (s : S) :
    Gen → Option S :=
  fun x => if x = g then some s else m x

/-- Cell::has_state from cell.rs (lines 120-123). -/
def has_state {Gen S : Type} (m : Gen → Option S) (g : Gen) : Bool := (m g).isSome

/-- Cell::update from cell.rs (lines 137-151): if the successor generation
already has a state, return at once; otherwise invoke the State update
function (here abstract, a function of the current state map, since the
CellRegion passed to it owns no locations and state lookups go through the
cell itself) and store its result under the successor generation.  The Nat
counts the invocations of the State update function made by this call. -/
def Cell.update {Gen S : Type} [DecidableEq Gen] (succ : Gen → Gen)
    (S_update : (Gen → Option S) → Except String S) (generation : Gen)
    (m : Gen → Option S) : Except String ((Gen → Option S) × Nat) :=
  let next_gen := succ generation
  if has_state m next_gen then .ok (m, 0)
  else
    match S_update m with
    | .ok new_state => .ok (hinsert m next_gen new_state, 1)
    | .error e => .error e

/-- Torus::update_all from torus.rs (lines 90-96): update every cell in
flat index order, stopping at the first error.  The cells are their state
maps; the state update function may depend on the cell index (in the
source it receives the cell itself).  Returns the final cell list and the
error of the first failing cell, if any; cells are mutated in place in the
source, so the cells updated before a failure keep their new entry. -/
def update_all {Gen S : Type} [DecidableEq Gen] (succ : Gen → Gen)
    (S_update : Nat → (Gen → Option S) → Except String S) (generation : Gen) :
    List (Gen → Option S) → Nat → List (Gen → Option S) × Option String
  | [], _ => ([], none)
  | m :: ms, i =>
    match Cell.update succ (S_update i) generation m with
    | .ok p =>
      let rest := update_all succ S_update generation ms (i + 1)
      (p.1 :: rest.1, rest.2)
    | .error e => (m :: ms, some e)

theorem getD_set_self : ∀ (l : List Nat) (k v : Nat), k < l.length →
    (l.set k v).getD k 0 = v := by
  intro l
  induction l with
  | nil => intro k v h; simp at h
  | cons a l ih =>
    intro k v h
    cases k with
    | zero => rfl
    | succ k =>
      show (a :: l.set k v).getD (k + 1) 0 = v
      rw [List.getD_cons_succ]
      exact ih k v (by simpa using h)

theorem getD_set_ne : ∀ (l : List Nat) (k j v : Nat), k ≠ j →
    (l.set k v).getD j 0 = l.getD j 0 := by
  intro l
  induction l with
  | nil => intro k j v _; simp
  | cons a l ih =>
    intro k j v h
    cases k with
    | zero =>
      cases j with
      | zero => exact absurd rfl h
      | succ j =>
        show (v :: l).getD (j + 1) 0 = (a :: l).getD (j + 1) 0
        rw [List.getD_cons_succ, List.getD_cons_succ]
    | succ k =>
      cases j with
      | zero => rfl
      | succ j =>
        show (a :: l.set k v).getD (j + 1) 0 = (a :: l).getD (j + 1) 0
        rw [List.getD_cons_succ, List.getD_cons_succ]
        exact ih k j v (by omega)

theorem set_getD_self : ∀ (l : List Nat) (k : Nat), k < l.length →
    l.set k (l.getD k 0) = l := by
  intro l
  induction l with
  | nil => intro k h; simp at h
  | cons a l ih =>
    intro k h
    cases k with
    | zero => rfl
    | succ k =>
      show a :: l.set k ((a :: l).getD (k + 1) 0) = a :: l
      rw [List.getD_cons_succ, ih k (by simpa using h)]

theorem getD_mem : ∀ (l : List Nat) (k : Nat), k < l.length → l.getD k 0 ∈ l := by
  intro l
  induction l with
  | nil => intro k h; simp at h
  | cons a l ih =>
    intro k h
    cases k with
    | zero => simp [List.getD]
    | succ k =>
      rw [List.getD_cons_succ]
      exact List.mem_cons_of_mem a (ih k (by simpa using h))

/-- Pointwise characterization of the in-bounds check. -/
theorem inB_iff : ∀ (c dims : List Nat), inB c dims = true ↔
    (c.length = dims.length ∧ ∀ k, k < dims.length → c.getD k 0 < dims.getD k 0) := by
  intro c
  induction c with
  | nil =>
    intro dims
    cases dims with
    | nil => simp [inB]
    | cons d ds => simp [inB]
  | cons x cs ih =>
    intro dims
    cases dims with
    | nil => simp [inB]
    | cons d ds =>
      simp only [inB, Bool.and_eq_true, decide_eq_true_eq, ih ds]
      constructor
      · rintro ⟨hx, hlen, hall⟩
        refine ⟨by simp [hlen], ?_⟩
        intro k hk
        cases k with
        | zero => simpa using hx
        | succ k =>
          show (x :: cs).getD (k + 1) 0 < (d :: ds).getD (k + 1) 0
          rw [List.getD_cons_succ, List.getD_cons_succ]
          exact hall k (by simpa using hk)
      · rintro ⟨hlen, hall⟩
        refine ⟨by simpa using hall 0 (by simp), by simpa using hlen, ?_⟩
        intro k hk
        have hs := hall (k + 1) (by simpa using hk)
        rw [List.getD_cons_succ, List.getD_cons_succ] at hs
        exact hs

theorem offsetCoord_length (dims c : List Nat) (k δ : Nat) :
    (offsetCoord dims c k δ).length = c.length := by
  simp [offsetCoord]

theorem offsetCoord_getD_self {dims c : List Nat} (hin : inB c dims = true)
    {k : Nat} (hk : k < dims.length) (δ : Nat) :
    (offsetCoord dims c k δ).getD k 0 = (c.getD k 0 + δ) % dims.getD k 0 := by
  have hlen : c.length = dims.length := inB_length hin
  exact getD_set_self c k _ (by omega)

theorem offsetCoord_getD_ne (dims c : List Nat) {k j : Nat} (δ : Nat) (h : k ≠ j) :
    (offsetCoord dims c k δ).getD j 0 = c.getD j 0 :=
  getD_set_ne c k j _ h

theorem inB_offsetCoord {dims c : List Nat} (hin : inB c dims = true)
    {k : Nat} (hk : k < dims.length) (δ : Nat) :
    inB (offsetCoord dims c k δ) dims = true := by
  rw [inB_iff] at hin ⊢
  obtain ⟨hlen, hall⟩ := hin
  refine ⟨by simp [offsetCoord, hlen], ?_⟩
  intro j hj
  by_cases hkj : k = j
  · subst hkj
    rw [offsetCoord, getD_set_self c k _ (by omega)]
    exact Nat.mod_lt _ (by have := hall k hk; omega)
  · rw [offsetCoord, getD_set_ne c k j _ hkj]
    exact hall j hj

theorem mod_offsets_cancel₁ {x d : Nat} (hx : x < d) :
    ((x + 1) % d + (d - 1)) % d = x := by
  rw [Nat.mod_add_mod]
  have he : x + 1 + (d - 1) = x + d := by omega
  rw [he, Nat.add_mod_right, Nat.mod_eq_of_lt hx]

theorem mod_offsets_cancel₂ {x d : Nat} (hx : x < d) :
    ((x + (d - 1)) % d + 1) % d = x := by
  rw [Nat.mod_add_mod]
  have he : x + (d - 1) + 1 = x + d := by omega
  rw [he, Nat.add_mod_right, Nat.mod_eq_of_lt hx]

theorem mod_ne_self₁ {x d : Nat} (hx : x < d) (hd : 2 ≤ d) : (x + 1) % d ≠ x := by
  by_cases h1 : x + 1 < d
  · rw [Nat.mod_eq_of_lt h1]; omega
  · have he : x + 1 = d := by omega
    rw [he, Nat.mod_self]; omega

theorem mod_ne_self₂ {x d : Nat} (hx : x < d) (hd : 2 ≤ d) : (x + (d - 1)) % d ≠ x := by
  by_cases hx0 : x = 0
  · subst hx0
    rw [Nat.zero_add, Nat.mod_eq_of_lt (by omega)]; omega
  · have he : x + (d - 1) = (x - 1) + d := by omega
    rw [he, Nat.add_mod_right, Nat.mod_eq_of_lt (by omega)]; omega

theorem mod_plus_ne_minus {x d : Nat} (hx : x < d) (hd : 3 ≤ d) :
    (x + 1) % d ≠ (x + (d - 1)) % d := by
  by_cases h1 : x + 1 < d
  · rw [Nat.mod_eq_of_lt h1]
    by_cases hx0 : x = 0
    · subst hx0
      rw [Nat.zero_add, Nat.mod_eq_of_lt (by omega)]; omega
    · have he : x + (d - 1) = (x - 1) + d := by omega
      rw [he, Nat.add_mod_right, Nat.mod_eq_of_lt (by omega)]; omega
  · have he1 : x + 1 = d := by omega
    rw [he1, Nat.mod_self]
    have he : x + (d - 1) = (x - 1) + d := by omega
    rw [he, Nat.add_mod_right, Nat.mod_eq_of_lt (by omega)]; omega

/-- The condition enforced by the per-cell asserts of the wiring passes:
on in-bounds coordinates, get_index agrees with the row-major index that
create_cells actually laid the cells out by. -/
def Asserts (dims : List Nat) : Prop :=
  ∀ c, inB c dims = true → get_index c dims = .ok (rowIndex c dims)

/-- Pure form of a sequence of joins of cell i with each target index. -/
def applyJoins (i : Nat) (ts : List Nat) (f : Nat → Finset Nat) : Nat → Finset Nat :=
  ts.foldl (fun g t => join g i t) f

theorem orthLoop_succ (dims : List Nat) (fuel i : Nat) (co : List Nat)
    (f : Nat → Finset Nat) :
    orthLoop dims (fuel + 1) i co f
      = match get_index co dims with
        | Except.error e => Except.error e
        | Except.ok v =>
          if v = i then
            match orthAxes dims co i (List.range dims.length) f with
            | Except.ok f' => orthLoop dims fuel (i + 1) (next_co_ordinates co dims) f'
            | Except.error e => Except.error e
          else Except.error "assertion failed" := rfl

theorem axisJoins_ok {dims co : List Nat} (hA : Asserts dims) (hin : inB co dims = true)
    {k : Nat} (hk : k < dims.length) (i : Nat) (f : Nat → Finset Nat) :
    axisJoins dims co i k f
      = .ok (applyJoins i ((axisOffsets dims co k).map (fun o => rowIndex o dims)) f) := by
  have h1 := hA _ (inB_offsetCoord hin hk (dims.getD k 0 - 1))
  have h2 := hA _ (inB_offsetCoord hin hk 1)
  unfold axisJoins
  rw [h1, h2]
  rfl

theorem orthAxes_ok {dims co : List Nat} (hA : Asserts dims) (hin : inB co dims = true)
    (i : Nat) : ∀ (ks : List Nat), (∀ k ∈ ks, k < dims.length) → ∀ f,
      orthAxes dims co i ks f
        = .ok (applyJoins i ((offsetsOver dims co ks).map (fun o => rowIndex o dims)) f) := by
  intro ks
  induction ks with
  | nil => intro _ f; rfl
  | cons k ks ih =>
    intro hks f
    have hk : k < dims.length := hks k (by simp)
    have hred : orthAxes dims co i (k :: ks) f
        = orthAxes dims co i ks
            (applyJoins i ((axisOffsets dims co k).map (fun o => rowIndex o dims)) f) := by
      show (match axisJoins dims co i k f with
        | Except.ok f' => orthAxes dims co i ks f'
        | Except.error e => Except.error e) = _
      rw [axisJoins_ok hA hin hk]
    rw [hred, ih (fun k' hk' => hks k' (by simp [hk']))]
    simp only [offsetsOver, List.map_append, applyJoins, List.foldl_append]

/-- Under passing asserts, the whole orthogonal sweep succeeds and computes
the fold of per-cell joins over the remaining cell indices. -/
theorem orthLoop_ok {dims : List Nat} (hA : Asserts dims) (hpos : ∀ d ∈ dims, 0 < d) :
    ∀ (fuel i : Nat) (f : Nat → Finset Nat), i + fuel = prodL dims →
      orthLoop dims fuel i (decode dims i) f
        = .ok ((List.range' i fuel).foldl
            (fun g j => applyJoins j (orthTargets dims (decode dims j)) g) f) := by
  intro fuel
  induction fuel with
  | zero => intro i f _; rfl
  | succ fuel ih =>
    intro i f hif
    have hiN : i < prodL dims := by omega
    obtain ⟨hin, hrow⟩ := rowIndex_decode hpos i hiN
    have hass : get_index (decode dims i) dims = .ok i := by rw [hA _ hin, hrow]
    have hred : orthLoop dims (fuel + 1) i (decode dims i) f
        = (if i = i then
            match orthAxes dims (decode dims i) i (List.range dims.length) f with
            | Except.ok f' =>
              orthLoop dims fuel (i + 1) (next_co_ordinates (decode dims i) dims) f'
            | Except.error e => Except.error e
          else Except.error "assertion failed") := by
      rw [orthLoop_succ, hass]
    rw [hred, if_pos rfl,
      orthAxes_ok hA hin i (List.range dims.length) (by intro k hk; simpa using hk)]
    rw [List.range'_succ, List.foldl_cons]
    cases fuel with
    | zero => rfl
    | succ fuel' =>
      have hnext : next_co_ordinates (decode dims i) dims = decode dims (i + 1) := by
        unfold next_co_ordinates
        rw [incr_spec dims _ hin, hrow, if_pos (by omega)]
      rw [hnext]
      exact ih (i + 1) _ (by omega)

/-- A successful orthogonal sweep implies that every assert along the way
passed: get_index agrees with the cell enumeration index at every step. -/
theorem orthLoop_asserts {dims : List Nat} (hpos : ∀ d ∈ dims, 0 < d) :
    ∀ (fuel i : Nat) (f F : Nat → Finset Nat),
      orthLoop dims fuel i (decode dims i) f = .ok F → i + fuel = prodL dims →
      ∀ j, i ≤ j → j < prodL dims → get_index (decode dims j) dims = .ok j := by
  intro fuel
  induction fuel with
  | zero => intro i f F _ hif j hij hj; omega
  | succ fuel ih =>
    intro i f F hok hif j hij hj
    have hiN : i < prodL dims := by omega
    obtain ⟨hin, hrow⟩ := rowIndex_decode hpos i hiN
    rw [orthLoop_succ] at hok
    rcases hgi : get_index (decode dims i) dims with e | v
    · rw [hgi] at hok
      have hok' : (Except.error e : Except String (Nat → Finset Nat)) = .ok F := hok
      exact absurd hok' (by simp)
    · rw [hgi] at hok
      have hok' : (if v = i then
          match orthAxes dims (decode dims i) i (List.range dims.length) f with
          | Except.ok f' =>
            orthLoop dims fuel (i + 1) (next_co_ordinates (decode dims i) dims) f'
          | Except.error e => Except.error e
        else Except.error "assertion failed") = .ok F := hok
      by_cases hv : v = i
      · subst hv
        rw [if_pos rfl] at hok'
        rcases hax : orthAxes dims (decode dims v) v (List.range dims.length) f with e | f'
        · rw [hax] at hok'
          have hok'' : (Except.error e : Except String (Nat → Finset Nat)) = .ok F := hok'
          exact absurd hok'' (by simp)
        · rw [hax] at hok'
          have hok'' : orthLoop dims fuel (v + 1)
              (next_co_ordinates (decode dims v) dims) f' = .ok F := hok'
          rcases Nat.eq_or_lt_of_le hij with rfl | hlt
          · exact hgi
          · cases fuel with
            | zero => omega
            | succ fuel' =>
              have hnext : next_co_ordinates (decode dims v) dims = decode dims (v + 1) := by
                unfold next_co_ordinates
                rw [incr_spec dims _ hin, hrow, if_pos (by omega)]
              rw [hnext] at hok''
              exact ih (v + 1) f' F hok'' (by omega) j (by omega) hj
      · rw [if_neg hv] at hok'
        have hok'' : (Except.error "assertion failed"
            : Except String (Nat → Finset Nat)) = .ok F := hok'
        exact absurd hok'' (by simp)

theorem mem_applyJoins (i : Nat) : ∀ (ts : List Nat) (f : Nat → Finset Nat) (x y : Nat),
    x ∈ applyJoins i ts f y ↔ x ∈ f y ∨ (y = i ∧ x ∈ ts) ∨ (x = i ∧ y ∈ ts) := by
  intro ts
  induction ts with
  | nil => intro f x y; simp [applyJoins]
  | cons t ts ih =>
    intro f x y
    show x ∈ applyJoins i ts (join f i t) y ↔ _
    rw [ih, mem_join]
    simp only [List.mem_cons]
    tauto

theorem mem_foldl_applyJoins (T : Nat → List Nat) :
    ∀ (is : List Nat) (f : Nat → Finset Nat) (x y : Nat),
      x ∈ (is.foldl (fun g j => applyJoins j (T j) g) f) y
        ↔ x ∈ f y ∨ ∃ j ∈ is, (y = j ∧ x ∈ T j) ∨ (x = j ∧ y ∈ T j) := by
  intro is
  induction is with
  | nil => intro f x y; simp
  | cons j is ih =>
    intro f x y
    rw [List.foldl_cons, ih, mem_applyJoins]
    constructor
    · rintro ((h | h | h) | ⟨j', hj', h⟩)
      · exact Or.inl h
      · exact Or.inr ⟨j, by simp, Or.inl h⟩
      · exact Or.inr ⟨j, by simp, Or.inr h⟩
      · exact Or.inr ⟨j', by simp [hj'], h⟩
    · rintro (h | ⟨j', hj', h⟩)
      · exact Or.inl (Or.inl h)
      · rcases List.mem_cons.mp hj' with rfl | hj''
        · rcases h with h | h
          · exact Or.inl (Or.inr (Or.inl h))
          · exact Or.inl (Or.inr (Or.inr h))
        · exact Or.inr ⟨j', hj'', h⟩

theorem mem_offsetsOver {dims c : List Nat} : ∀ (ks : List Nat) (o : List Nat),
    o ∈ offsetsOver dims c ks
      ↔ ∃ k ∈ ks, o = offsetCoord dims c k (dims.getD k 0 - 1)
          ∨ o = offsetCoord dims c k 1 := by
  intro ks
  induction ks with
  | nil => intro o; simp [offsetsOver]
  | cons k ks ih =>
    intro o
    simp only [offsetsOver, List.mem_append, ih, axisOffsets, List.mem_cons,
      List.mem_singleton, List.not_mem_nil, or_false]
    constructor
    · rintro ((h | h) | ⟨k', hk', h⟩)
      · exact ⟨k, by simp, Or.inl h⟩
      · exact ⟨k, by simp, Or.inr h⟩
      · exact ⟨k', by simp [hk'], h⟩
    · rintro ⟨k', hk', h⟩
      rcases hk' with rfl | hk''
      · exact Or.inl (by tauto)
      · exact Or.inr ⟨k', hk'', h⟩

theorem mem_orthTargets {dims c : List Nat} (x : Nat) :
    x ∈ orthTargets dims c
      ↔ ∃ k < dims.length,
          x = rowIndex (offsetCoord dims c k (dims.getD k 0 - 1)) dims
            ∨ x = rowIndex (offsetCoord dims c k 1) dims := by
  unfold orthTargets orthOffsets
  rw [List.mem_map]
  constructor
  · rintro ⟨o, ho, rfl⟩
    rw [mem_offsetsOver] at ho
    obtain ⟨k, hk, ho⟩ := ho
    exact ⟨k, by simpa using hk, by rcases ho with rfl | rfl; exacts [Or.inl rfl, Or.inr rfl]⟩
  · rintro ⟨k, hk, h⟩
    rcases h with rfl | rfl
    · exact ⟨_, (mem_offsetsOver _ _).mpr ⟨k, by simpa using hk, Or.inl rfl⟩, rfl⟩
    · exact ⟨_, (mem_offsetsOver _ _).mpr ⟨k, by simpa using hk, Or.inr rfl⟩, rfl⟩

/-- All orthogonal neighbor coordinates of an in-bounds cell are in bounds,
so their row-major indices are below the product of the dimensions. -/
theorem orthTargets_lt {dims c : List Nat} (hin : inB c dims = true) {x : Nat}
    (hx : x ∈ orthTargets dims c) : x < prodL dims := by
  rw [mem_orthTargets] at hx
  obtain ⟨k, hk, h⟩ := hx
  rcases h with rfl | rfl
  · exact rowIndex_lt (inB_offsetCoord hin hk _)
  · exact rowIndex_lt (inB_offsetCoord hin hk _)

/-- The inverse offset along the same axis leads back: stepping by delta
then by its complement returns the original coordinate vector. -/
theorem offsetCoord_invol {dims c : List Nat} (hin : inB c dims = true)
    {k : Nat} (hk : k < dims.length) {δ δ' : Nat}
    (hcancel : ((c.getD k 0 + δ) % dims.getD k 0 + δ') % dims.getD k 0 = c.getD k 0) :
    offsetCoord dims (offsetCoord dims c k δ) k δ' = c := by
  have hlen : c.length = dims.length := inB_length hin
  unfold offsetCoord
  rw [getD_set_self c k _ (by omega), List.set_set, hcancel, set_getD_self c k (by omega)]

/-- Symmetry of the orthogonal neighbor relation: if x is a target of the
cell at coordinates c, then the index of c is a target of the cell at the
coordinates of x. -/
theorem orthTargets_symm {dims : List Nat} {c : List Nat}
    (hin : inB c dims = true) {x : Nat} (hx : x ∈ orthTargets dims c) :
    rowIndex c dims ∈ orthTargets dims (decode dims x) := by
  rw [mem_orthTargets] at hx
  obtain ⟨k, hk, h⟩ := hx
  have hlen : c.length = dims.length := inB_length hin
  have hd : 0 < dims.getD k 0 := by
    have := (inB_iff c dims).mp hin
    have := this.2 k hk
    omega
  have hck : c.getD k 0 < dims.getD k 0 := ((inB_iff c dims).mp hin).2 k hk
  rcases h with rfl | rfl
  · -- x is the neighbor at offset dims[k] - 1; come back with offset 1
    have hinx : inB (offsetCoord dims c k (dims.getD k 0 - 1)) dims = true :=
      inB_offsetCoord hin hk _
    rw [decode_rowIndex hinx]
    rw [mem_orthTargets]
    refine ⟨k, hk, Or.inr ?_⟩
    have hback : offsetCoord dims (offsetCoord dims c k (dims.getD k 0 - 1)) k 1 = c := by
      apply offsetCoord_invol hin hk
      exact mod_offsets_cancel₂ hck
    rw [hback]
  · -- x is the neighbor at offset 1; come back with offset dims[k] - 1
    have hinx : inB (offsetCoord dims c k 1) dims = true := inB_offsetCoord hin hk _
    rw [decode_rowIndex hinx]
    rw [mem_orthTargets]
    refine ⟨k, hk, Or.inl ?_⟩
    have hback : offsetCoord dims (offsetCoord dims c k 1) k (dims.getD k 0 - 1) = c := by
      apply offsetCoord_invol hin hk
      exact mod_offsets_cancel₁ hck
    rw [hback]

theorem axisOffsets_getD_ne_self {dims c : List Nat} (hin : inB c dims = true)
    {k : Nat} (hk : k < dims.length) (h2 : 2 ≤ dims.getD k 0) :
    ∀ o ∈ axisOffsets dims c k, o.getD k 0 ≠ c.getD k 0 := by
  have hck : c.getD k 0 < dims.getD k 0 := ((inB_iff c dims).mp hin).2 k hk
  intro o ho
  rcases List.mem_cons.mp ho with rfl | ho'
  · rw [offsetCoord_getD_self hin hk]
    exact mod_ne_self₂ hck h2
  · rcases List.mem_singleton.mp ho' with rfl
    rw [offsetCoord_getD_self hin hk]
    exact mod_ne_self₁ hck h2

theorem axisOffsets_getD_other {dims c : List Nat} {k j : Nat} (hkj : k ≠ j) :
    ∀ o ∈ axisOffsets dims c k, o.getD j 0 = c.getD j 0 := by
  intro o ho
  rcases List.mem_cons.mp ho with rfl | ho'
  · exact offsetCoord_getD_ne dims c _ hkj
  · rcases List.mem_singleton.mp ho' with rfl
    exact offsetCoord_getD_ne dims c _ hkj

theorem axisOffsets_nodup {dims c : List Nat} (hin : inB c dims = true)
    {k : Nat} (hk : k < dims.length) (h3 : 3 ≤ dims.getD k 0) :
    (axisOffsets dims c k).Nodup := by
  have hck : c.getD k 0 < dims.getD k 0 := ((inB_iff c dims).mp hin).2 k hk
  simp only [axisOffsets, List.nodup_cons, List.mem_singleton, List.not_mem_nil,
    not_false_iff, and_true, List.nodup_nil]
  intro heq
  have hgd := congrArg (fun l => l.getD k 0) heq
  simp only at hgd
  rw [offsetCoord_getD_self hin hk, offsetCoord_getD_self hin hk] at hgd
  exact mod_plus_ne_minus hck h3 hgd.symm

theorem offsetsOver_nodup {dims c : List Nat} (hin : inB c dims = true)
    (h3 : ∀ d ∈ dims, 3 ≤ d) :
    ∀ ks : List Nat, ks.Nodup → (∀ k ∈ ks, k < dims.length) →
      (offsetsOver dims c ks).Nodup := by
  intro ks
  induction ks with
  | nil => intro _ _; simp [offsetsOver]
  | cons k ks ih =>
    intro hnd hbd
    have hk : k < dims.length := hbd k (by simp)
    have h3k : 3 ≤ dims.getD k 0 := h3 _ (getD_mem dims k hk)
    rw [show offsetsOver dims c (k :: ks) = axisOffsets dims c k ++ offsetsOver dims c ks
        from rfl]
    rw [List.nodup_append]
    refine ⟨axisOffsets_nodup hin hk h3k,
      ih (List.Nodup.of_cons hnd) (fun k' hk' => hbd k' (by simp [hk'])), ?_⟩
    intro o ho ho'
    rw [mem_offsetsOver] at ho'
    obtain ⟨k', hk'mem, hcase⟩ := ho'
    have hkk' : k ≠ k' := by
      rintro rfl
      exact (List.nodup_cons.mp hnd).1 hk'mem
    have h1 : o.getD k 0 ≠ c.getD k 0 := axisOffsets_getD_ne_self hin hk (by omega) o ho
    have h2 : o.getD k 0 = c.getD k 0 := by
      have hmem : o ∈ axisOffsets dims c k' := by
        rcases hcase with rfl | rfl
        · simp [axisOffsets]
        · simp [axisOffsets]
      exact axisOffsets_getD_other (fun he => hkk' he.symm) o hmem
    exact h1 h2

theorem offsetsOver_inB {dims c : List Nat} (hin : inB c dims = true) :
    ∀ (ks : List Nat), (∀ k ∈ ks, k < dims.length) →
      ∀ o ∈ offsetsOver dims c ks, inB o dims = true := by
  intro ks hbd o ho
  rw [mem_offsetsOver] at ho
  obtain ⟨k, hk, hcase⟩ := ho
  rcases hcase with rfl | rfl
  · exact inB_offsetCoord hin (hbd k hk) _
  · exact inB_offsetCoord hin (hbd k hk) _

theorem orthTargets_nodup {dims c : List Nat} (hin : inB c dims = true)
    (h3 : ∀ d ∈ dims, 3 ≤ d) : (orthTargets dims c).Nodup := by
  unfold orthTargets orthOffsets
  apply List.Nodup.map_on
  · intro o1 ho1 o2 ho2 heq
    have hb1 := offsetsOver_inB hin (List.range dims.length)
      (fun k hk => by simpa using hk) o1 ho1
    have hb2 := offsetsOver_inB hin (List.range dims.length)
      (fun k hk => by simpa using hk) o2 ho2
    exact rowIndex_inj hb1 hb2 heq
  · exact offsetsOver_nodup hin h3 (List.range dims.length) (List.nodup_range _)
      (fun k hk => by simpa using hk)

theorem offsetsOver_length (dims c : List Nat) :
    ∀ ks : List Nat, (offsetsOver dims c ks).length = 2 * ks.length := by
  intro ks
  induction ks with
  | nil => rfl
  | cons k ks ih =>
    rw [show offsetsOver dims c (k :: ks) = axisOffsets dims c k ++ offsetsOver dims c ks
        from rfl]
    simp [ih, axisOffsets]
    ring

theorem orthTargets_length (dims c : List Nat) :
    (orthTargets dims c).length = 2 * dims.length := by
  unfold orthTargets orthOffsets
  rw [List.length_map, offsetsOver_length, List.length_range]

/-- Full characterization of the neighbor map produced by a successful
orthogonal wiring pass on a torus with positive extents: y is joined to
exactly the row-major indices of the cells one step forward or backward of
y along each axis, modulo the extent. -/
theorem connect_orthogonally_char {dims : List Nat} {F : Nat → Finset Nat}
    (hpos : ∀ d ∈ dims, 0 < d)
    (hok : connect_orthogonally dims (prodL dims) (fun _ => ∅) = .ok F) :
    ∀ x y, x ∈ F y ↔ (y < prodL dims ∧ x ∈ orthTargets dims (decode dims y)) := by
  have hzero : List.replicate dims.length 0 = decode dims 0 := (decode_zero hpos).symm
  unfold connect_orthogonally at hok
  rw [hzero] at hok
  have hA : Asserts dims := by
    intro c hc
    have h1 := orthLoop_asserts hpos (prodL dims) 0 _ F hok (by omega) (rowIndex c dims)
      (by omega) (rowIndex_lt hc)
    rw [decode_rowIndex hc] at h1
    exact h1
  have hval := orthLoop_ok hA hpos (prodL dims) 0 (fun _ => ∅) (by omega)
  rw [hval] at hok
  have hF : F = (List.range' 0 (prodL dims)).foldl
      (fun g j => applyJoins j (orthTargets dims (decode dims j)) g) (fun _ => ∅) :=
    (Except.ok.inj hok).symm
  intro x y
  rw [hF, mem_foldl_applyJoins]
  simp only [Finset.not_mem_empty, false_or, List.mem_range'_1, Nat.zero_add,
    true_and, Nat.le_zero_eq]
  constructor
  · rintro ⟨j, hj, h⟩
    rcases h with ⟨rfl, hx⟩ | ⟨rfl, hy⟩
    · exact ⟨by omega, hx⟩
    · obtain ⟨hinx, hrowx⟩ := rowIndex_decode hpos x (by omega)
      have hsym := orthTargets_symm hinx hy
      rw [hrowx] at hsym
      refine ⟨orthTargets_lt hinx hy, hsym⟩
  · rintro ⟨hy, hx⟩
    exact ⟨y, by omega, Or.inl ⟨rfl, hx⟩⟩

/-- The wiring pass Torus::new runs for each tiling, starting from the
empty neighbor map of freshly created cells. -/
def connFor (t : Tiling) (dims : List Nat) : Except String (Nat → Finset Nat) :=
  match t with
  | .Orthogonal => connect_orthogonally dims (create_cells dims).length (fun _ => ∅)
  | .OrthogonalAndDiagonal =>
    connect_orthogonally_and_diagonally dims (create_cells dims).length (fun _ => ∅)
  | .Hexagons => connect_hexagons dims (create_cells dims).length (fun _ => ∅)
  | _ => .error "not yet implemented"

theorem Torus_new_eq (t : Tiling) (dims : List Nat) :
    Torus.new t dims = match connFor t dims with
      | Except.ok f => Except.ok (Torus.mk t dims (create_cells dims) f)
      | Except.error e => Except.error e := by
  cases t <;> rfl

theorem Torus_new_ok {t : Tiling} {dims : List Nat} {T : Torus}
    (h : Torus.new t dims = .ok T) :
    ∃ F, connFor t dims = .ok F ∧ T = Torus.mk t dims (create_cells dims) F := by
  rw [Torus_new_eq] at h
  rcases hc : connFor t dims with e | F
  · rw [hc] at h
    have h' : (Except.error e : Except String Torus) = .ok T := h
    exact absurd h' (by simp)
  · rw [hc] at h
    have h' : Except.ok (Torus.mk t dims (create_cells dims) F) = .ok T := h
    exact ⟨F, rfl, (Except.ok.inj h').symm⟩

/-- The torus a successful construction returns (with a degenerate default
for the failing case), used to apply theorems at concrete inputs. -/
def torusOf (t : Tiling) (dims : List Nat) : Torus :=
  match Torus.new t dims with
  | .ok T => T
  | .error _ => Torus.mk t dims [] (fun _ => ∅)

theorem foldl_count {α : Type} : ∀ (l : List α) (n : Nat),
    l.foldl (fun a _ => a + 1) n = n + l.length := by
  intro l
  induction l with
  | nil => intro n; simp
  | cons x l ih => intro n; rw [List.foldl_cons, ih]; simp; omega

theorem prodL_replicate (d : Nat) : ∀ n : Nat, prodL (List.replicate n d) = d ^ n := by
  intro n
  induction n with
  | zero => rfl
  | succ n ih =>
    rw [List.replicate_succ, show prodL (d :: List.replicate n d)
        = d * prodL (List.replicate n d) from rfl, ih, pow_succ]
    ring

theorem dropLast_replicate (d : Nat) : ∀ n : Nat,
    (List.replicate n d).dropLast = List.replicate (n - 1) d := by
  intro n
  induction n with
  | zero => rfl
  | succ n ih =>
    cases n with
    | zero => rfl
    | succ m =>
      show (d :: List.replicate (m + 1) d).dropLast = List.replicate (m + 1) d
      rw [show (d :: List.replicate (m + 1) d).dropLast
          = d :: (List.replicate (m + 1) d).dropLast from by
        rw [List.replicate_succ]; rfl]
      rw [ih]
      rw [show List.replicate (m + 1) d = d :: List.replicate m d from rfl]
      simp

/-- The head of the radix vector never enters the row-major value: only the
products of the later extents do. -/
theorem rowIndex_head_irrelevant (c : List Nat) (a b : Nat) (ds : List Nat) :
    rowIndex c (a :: ds) = rowIndex c (b :: ds) := by
  cases c with
  | nil => rfl
  | cons x cs => rfl

theorem prodL_zero : ∀ (dims : List Nat), 0 ∈ dims → prodL dims = 0 := by
  intro dims
  induction dims with
  | nil => intro h; simp at h
  | cons d ds ih =>
    intro h
    rcases List.mem_cons.mp h with rfl | h'
    · show 0 * prodL ds = 0
      ring
    · show d * prodL ds = 0
      rw [ih h']
      ring

section CellUpdate

variable {Gen S : Type} [DecidableEq Gen]

theorem update_all_cons_ok (succ : Gen → Gen)
    (S_update : Nat → (Gen → Option S) → Except String S) (g : Gen)
    (m : Gen → Option S) (ms : List (Gen → Option S)) (i : Nat)
    {p : (Gen → Option S) × Nat} (hu : Cell.update succ (S_update i) g m = .ok p) :
    update_all succ S_update g (m :: ms) i
      = (p.1 :: (update_all succ S_update g ms (i + 1)).1,
         (update_all succ S_update g ms (i + 1)).2) := by
  show (match Cell.update succ (S_update i) g m with
    | Except.ok p =>
      (p.1 :: (update_all succ S_update g ms (i + 1)).1,
       (update_all succ S_update g ms (i + 1)).2)
    | Except.error e => (m :: ms, some e)) = _
  rw [hu]

theorem update_all_cons_error (succ : Gen → Gen)
    (S_update : Nat → (Gen → Option S) → Except String S) (g : Gen)
    (m : Gen → Option S) (ms : List (Gen → Option S)) (i : Nat)
    {e : String} (hu : Cell.update succ (S_update i) g m = .error e) :
    update_all succ S_update g (m :: ms) i = (m :: ms, some e) := by
  show (match Cell.update succ (S_update i) g m with
    | Except.ok p =>
      (p.1 :: (update_all succ S_update g ms (i + 1)).1,
       (update_all succ S_update g ms (i + 1)).2)
    | Except.error e => (m :: ms, some e)) = _
  rw [hu]

/-- The sweep reports success exactly when every per-cell update succeeds. -/
theorem update_all_none_iff (succ : Gen → Gen)
    (S_update : Nat → (Gen → Option S) → Except String S) (g : Gen) :
    ∀ (cells : List (Gen → Option S)) (i0 : Nat),
      (update_all succ S_update g cells i0).2 = none ↔
        ∀ j, (h : j < cells.length) →
          ∃ r, Cell.update succ (S_update (i0 + j)) g (cells.get ⟨j, h⟩) = .ok r := by
  intro cells
  induction cells with
  | nil => intro i0; simp [update_all]
  | cons m ms ih =>
    intro i0
    rcases hu : Cell.update succ (S_update i0) g m with e | p
    · rw [update_all_cons_error succ S_update g m ms i0 hu]
      simp only [List.length_cons]
      constructor
      · intro h; exact absurd h (by simp)
      · intro hall
        obtain ⟨r, hr⟩ := hall 0 (by omega)
        have hr' : Cell.update succ (S_update i0) g m = .ok r := hr
        rw [hu] at hr'
        exact absurd hr' (by simp)
    · rw [update_all_cons_ok succ S_update g m ms i0 hu]
      simp only [List.length_cons]
      rw [ih (i0 + 1)]
      constructor
      · intro hall j hj
        cases j with
        | zero => exact ⟨p, hu⟩
        | succ j =>
          obtain ⟨r, hr⟩ := hall j (by omega)
          have hidx : i0 + 1 + j = i0 + (j + 1) := by omega
          rw [hidx] at hr
          exact ⟨r, hr⟩
      · intro hall j hj
        obtain ⟨r, hr⟩ := hall (j + 1) (by omega)
        have hidx : i0 + (j + 1) = i0 + 1 + j := by omega
        rw [hidx] at hr
        exact ⟨r, hr⟩

/-- On the first failing cell the sweep stops: it reports that cell's
error, and the failing cell and all cells after it keep their old state. -/
theorem update_all_first_error (succ : Gen → Gen)
    (S_update : Nat → (Gen → Option S) → Except String S) (g : Gen) :
    ∀ (cells : List (Gen → Option S)) (i0 j : Nat) (hj : j < cells.length),
      (∀ j', (hj' : j' < j) →
        ∃ r, Cell.update succ (S_update (i0 + j')) g (cells.get ⟨j', by omega⟩) = .ok r) →
      ∀ e, Cell.update succ (S_update (i0 + j)) g (cells.get ⟨j, hj⟩) = .error e →
        (update_all succ S_update g cells i0).2 = some e ∧
        (update_all succ S_update g cells i0).1.drop j = cells.drop j ∧
        (update_all succ S_update g cells i0).1.length = cells.length := by
  intro cells
  induction cells with
  | nil => intro i0 j hj; simp at hj
  | cons m ms ih =>
    intro i0 j hj hprev e hfail
    cases j with
    | zero =>
      have hfail' : Cell.update succ (S_update i0) g m = .error e := hfail
      rw [update_all_cons_error succ S_update g m ms i0 hfail']
      exact ⟨rfl, rfl, rfl⟩
    | succ j =>
      have hjm : j < ms.length := by
        have : j + 1 < (m :: ms).length := hj
        simpa using this
      obtain ⟨r, hr⟩ := hprev 0 (by omega)
      have hr' : Cell.update succ (S_update i0) g m = .ok r := hr
      rw [update_all_cons_ok succ S_update g m ms i0 hr']
      have hfail' : Cell.update succ (S_update (i0 + (j + 1))) g (ms.get ⟨j, hjm⟩)
          = .error e := hfail
      have hidx : i0 + (j + 1) = i0 + 1 + j := by omega
      rw [hidx] at hfail'
      have hprev' : ∀ j', (hj' : j' < j) →
          ∃ r', Cell.update succ (S_update (i0 + 1 + j')) g (ms.get ⟨j', by omega⟩)
            = .ok r' := by
        intro j' hj'
        obtain ⟨r', hr2⟩ := hprev (j' + 1) (by omega)
        have hr3 : Cell.update succ (S_update (i0 + (j' + 1))) g
            (ms.get ⟨j', by omega⟩) = .ok r' := hr2
        have hidx2 : i0 + (j' + 1) = i0 + 1 + j' := by omega
        rw [hidx2] at hr3
        exact ⟨r', hr3⟩
      obtain ⟨h1, h2, h3⟩ := ih (i0 + 1) j hjm hprev' e hfail'
      refine ⟨h1, ?_, by simpa using h3⟩
      show (update_all succ S_update g ms (i0 + 1)).1.drop j = ms.drop j
      exact h2

end CellUpdate

/-- One recursion level of create_cells produces the cells in blocks of
prodL ds consecutive linear indices, one block per value of the leading
coordinate. -/
theorem decode_blocks (d : Nat) (ds : List Nat) :
    ∀ (n a : Nat),
      (List.range' (a * prodL ds) (n * prodL ds)).map (decode (d :: ds))
        = (List.range' a n).foldr
            (fun i acc => (((List.range (prodL ds)).map (decode ds)).map (i :: ·)) ++ acc)
            [] := by
  intro n
  induction n with
  | zero => intro a; rw [Nat.zero_mul]; rfl
  | succ n ih =>
    intro a
    have hsplit : List.range' (a * prodL ds) ((n + 1) * prodL ds)
        = List.range' (a * prodL ds) (prodL ds)
            ++ List.range' (a * prodL ds + prodL ds) (n * prodL ds) := by
      rw [List.range'_append_1]
      congr 1
      ring
    rw [hsplit, List.map_append]
    have hnext : a * prodL ds + prodL ds = (a + 1) * prodL ds := by ring
    rw [hnext, ih (a + 1)]
    have hblock : (List.range' (a * prodL ds) (prodL ds)).map (decode (d :: ds))
        = ((List.range (prodL ds)).map (decode ds)).map (a :: ·) := by
      rw [List.range'_eq_map_range, List.map_map, List.map_map]
      apply List.map_congr_left
      intro r hr
      have hrP : r < prodL ds := List.mem_range.mp hr
      show decode (d :: ds) (a * prodL ds + r) = a :: decode ds r
      show (a * prodL ds + r) / prodL ds :: decode ds ((a * prodL ds + r) % prodL ds)
        = a :: decode ds r
      have h1 : (a * prodL ds + r) / prodL ds = a := by
        rw [Nat.mul_comm, Nat.mul_add_div (by omega), Nat.div_eq_of_lt hrP, Nat.add_zero]
      have h2 : (a * prodL ds + r) % prodL ds = r := by
        rw [Nat.mul_comm, Nat.mul_add_mod, Nat.mod_eq_of_lt hrP]
      rw [h1, h2]
    rw [hblock]
    rfl

/-- create_cells enumerates exactly the row-major decodings of the linear
indices 0, 1, ..., product(dimensions) - 1, in order. -/
theorem create_cells_eq : ∀ (dims : List Nat), dims ≠ [] →
    create_cells dims = (List.range (prodL dims)).map (decode dims) := by
  intro dims
  match dims with
  | [] => intro h; exact absurd rfl h
  | [d] =>
    intro _
    have hp : prodL [d] = d := by show d * 1 = d; ring
    rw [hp]
    show (List.range d).map (fun i => [i]) = (List.range d).map (decode [d])
    apply List.map_congr_left
    intro a _
    show ([a] : List Nat) = a / prodL [] :: decode [] (a % prodL [])
    rw [show prodL [] = 1 from rfl, Nat.div_one]
    rfl
  | d :: d' :: ds =>
    intro _
    rw [create_cells_cons₂, create_cells_eq (d' :: ds) (by simp)]
    have hb := decode_blocks d (d' :: ds) d 0
    rw [Nat.zero_mul] at hb
    simp only [← List.range_eq_range'] at hb
    rw [show prodL (d :: d' :: ds) = d * prodL (d' :: ds) from rfl]
    exact hb.symm

/-- The i-th created cell carries coordinates decode dims i. -/
theorem create_cells_getD {dims : List Nat} (hne : dims ≠ []) {i : Nat}
    (hi : i < prodL dims) : (create_cells dims).getD i [] = decode dims i := by
  rw [create_cells_eq dims hne, List.getD_eq_getElem?_getD,
    List.getElem?_map, List.getElem?_range hi]
  rfl

theorem get_index_uniform {n d : Nat} (hn : 0 < n) :
    ∀ c : List Nat, c.length = n →
      get_index c (List.replicate n d) = .ok (rowIndex c (List.replicate n d)) := by
  intro c hc
  have hne : List.replicate n d ≠ [] := by
    intro h
    have hl := congrArg List.length h
    simp at hl
    omega
  rw [get_index_closed _ c hne (by simp [hc])]
  congr 1
  rw [dropLast_replicate]
  obtain ⟨m, rfl⟩ : ∃ m, n = m + 1 := ⟨n - 1, by omega⟩
  have hsub : (m + 1) - 1 = m := rfl
  rw [hsub, rowIndex_head_irrelevant c 1 d,
    show List.replicate (m + 1) d = d :: List.replicate m d from rfl]

theorem join_preserves_symm {α : Type} [DecidableEq α] {f : α → Finset α}
    (hsym : ∀ x y, x ∈ f y ↔ y ∈ f x) (a b : α) :
    ∀ x y, x ∈ join f a b y ↔ y ∈ join f a b x := by
  intro x y
  rw [mem_join, mem_join, hsym x y]
  tauto

theorem foldl_join_symm {α : Type} [DecidableEq α] :
    ∀ (ps : List (α × α)) (f : α → Finset α),
      (∀ x y, x ∈ f y ↔ y ∈ f x) →
      ∀ x y, x ∈ ps.foldl (fun g p => join g p.1 p.2) f y
        ↔ y ∈ ps.foldl (fun g p => join g p.1 p.2) f x := by
  intro ps
  induction ps with
  | nil => intro f hsym; exact hsym
  | cons p ps ih =>
    intro f hsym x y
    exact ih (join f p.1 p.2) (join_preserves_symm hsym p.1 p.2) x y

/-- C1 (amended): for every nonempty dimension vector and every in-bounds
coordinate vector of the same length, get_index returns Ok not of the
least-significant-first mixed-radix value claimed by the spec, but of the
Horner value ((c[0]*dims[0] + c[1])*dims[1] + c[2])*dims[2] + ... —
equivalently, the row-major value of c over the shifted radix vector
(1, dims[0], ..., dims[n-2]). -/
theorem C1_get_index_amended (dims c : List Nat) (hne : dims ≠ [])
    (hin : inB c dims = true) :
    get_index c dims = .ok (rowIndex c (1 :: dims.dropLast)) :=
  get_index_closed dims c hne (inB_length hin)

/-- C1 counterexample: at dims = [2, 2] and the in-bounds coordinate
vector c = [0, 1], get_index returns 1 while the least-significant-first
formula of the claim yields 0 + 1 * 2 = 2. -/
theorem C1_lsf_cex :
    inB [0, 1] [2, 2] = true ∧
    get_index [0, 1] [2, 2] = .ok 1 ∧ lsfIndex [0, 1] [2, 2] = 2 :=
  ⟨rfl, rfl, rfl⟩

/-- C1 witness: the amended theorem applied at dims = [2, 2], c = [0, 1]. -/
theorem C1_witness :
    get_index [0, 1] [2, 2] = .ok (rowIndex [0, 1] (1 :: ([2, 2] : List Nat).dropLast)) :=
  C1_get_index_amended [2, 2] [0, 1] (by simp) rfl

/-- C2 (amended): the coordinate-to-index map of get_index is a bijection
onto the index range only for hypercubic dimension vectors: for dims made
of n equal positive extents d, get_index sends in-bounds coordinate
vectors to Ok of their row-major value, which is below d ^ n, and decode
inverts it; conversely every index below d ^ n decodes to an in-bounds
coordinate vector that get_index maps back to it. -/
theorem C2_hypercube_bijection (n d : Nat) (hn : 0 < n) (hd : 0 < d) :
    (∀ c, inB c (List.replicate n d) = true →
        get_index c (List.replicate n d) = .ok (rowIndex c (List.replicate n d)) ∧
        rowIndex c (List.replicate n d) < d ^ n ∧
        decode (List.replicate n d) (rowIndex c (List.replicate n d)) = c) ∧
    (∀ m, m < d ^ n →
        inB (decode (List.replicate n d) m) (List.replicate n d) = true ∧
        get_index (decode (List.replicate n d) m) (List.replicate n d) = .ok m) := by
  have hpos : ∀ e ∈ List.replicate n d, 0 < e := by
    intro e he
    rw [List.eq_of_mem_replicate he]
    exact hd
  constructor
  · intro c hc
    have hlen : c.length = n := by
      have hl := inB_length hc
      simpa using hl
    refine ⟨get_index_uniform hn c hlen, ?_, decode_rowIndex hc⟩
    have hlt := rowIndex_lt hc
    rwa [prodL_replicate] at hlt
  · intro m hm
    have hm' : m < prodL (List.replicate n d) := by rwa [prodL_replicate]
    obtain ⟨hin, hrow⟩ := rowIndex_decode hpos m hm'
    have hlen : (decode (List.replicate n d) m).length = n := by
      have hl := inB_length hin
      simpa using hl
    refine ⟨hin, ?_⟩
    rw [get_index_uniform hn _ hlen, hrow]

/-- C2 counterexample: for the all-positive dimension vector [2, 3] the
map is not injective on in-bounds coordinates: [1, 0] and [0, 2] both map
to linear index 2, so it is no bijection. -/
theorem C2_not_injective_cex :
    inB [1, 0] [2, 3] = true ∧ inB [0, 2] [2, 3] = true ∧
    get_index [1, 0] [2, 3] = Except.ok 2 ∧ get_index [0, 2] [2, 3] = Except.ok 2 ∧
    ([1, 0] : List Nat) ≠ [0, 2] :=
  ⟨rfl, rfl, rfl, rfl, by decide⟩

/-- C2 witness: the amended theorem applied to the 2-dimensional 2-torus. -/
theorem C2_witness :
    (∀ c, inB c (List.replicate 2 2) = true →
        get_index c (List.replicate 2 2) = .ok (rowIndex c (List.replicate 2 2)) ∧
        rowIndex c (List.replicate 2 2) < 2 ^ 2 ∧
        decode (List.replicate 2 2) (rowIndex c (List.replicate 2 2)) = c) ∧
    (∀ m, m < 2 ^ 2 →
        inB (decode (List.replicate 2 2) m) (List.replicate 2 2) = true ∧
        get_index (decode (List.replicate 2 2) m) (List.replicate 2 2) = .ok m) :=
  C2_hypercube_bijection 2 2 (by decide) (by decide)

/-- C3 counterexample: Torus::new with Orthogonal tiling and the dimension
vector [0] succeeds instead of failing with a dimension error. -/
theorem C3_zero_dims_cex : (Torus.new Tiling.Orthogonal [0]).isOk = true := rfl

/-- C3 (amended): Torus::new performs no zero-dimension check at all; with
Orthogonal tiling and any dimension vector containing a zero entry it
returns Ok of a torus whose cell vector is empty. -/
theorem C3_zero_dims_amended (dims : List Nat) (h : 0 ∈ dims) :
    (Torus.new Tiling.Orthogonal dims).map Torus.cells = .ok [] := by
  rw [Torus_new_eq]
  have hz : create_cells dims = [] := create_cells_zero dims h
  have hc : connFor Tiling.Orthogonal dims = .ok (fun _ => ∅) := by
    show connect_orthogonally dims (create_cells dims).length (fun _ => ∅) = _
    rw [hz]
    rfl
  rw [hc, hz]
  rfl

/-- C3 witness: the amended theorem applied at dims = [0]. -/
theorem C3_witness : (Torus.new Tiling.Orthogonal [0]).map Torus.cells = .ok [] :=
  C3_zero_dims_amended [0] (by simp)

/-- C4 (confirmed): if a call to Cell::update(g) succeeds, leaving state
map m1, then a second call to update(g) returns success at once, invokes
the State update function zero times, and leaves the state map m1 (hence
the stored value for g.successor()) unchanged. -/
theorem C4_update_idempotent {Gen S : Type} [DecidableEq Gen] (succ : Gen → Gen)
    (S_update : (Gen → Option S) → Except String S) (g : Gen)
    (m m1 : Gen → Option S) (k : Nat)
    (h : Cell.update succ S_update g m = .ok (m1, k)) :
    Cell.update succ S_update g m1 = .ok (m1, 0) := by
  have h0 : (if has_state m (succ g) = true then Except.ok (m, 0)
      else match S_update m with
        | Except.ok new_state => Except.ok (hinsert m (succ g) new_state, 1)
        | Except.error e => Except.error e) = Except.ok (m1, k) := h
  show (if has_state m1 (succ g) = true then Except.ok (m1, 0)
      else match S_update m1 with
        | Except.ok new_state => Except.ok (hinsert m1 (succ g) new_state, 1)
        | Except.error e => Except.error e) = Except.ok (m1, 0)
  by_cases hs : has_state m (succ g) = true
  · rw [if_pos hs] at h0
    have h1 : m = m1 := congrArg Prod.fst (Except.ok.inj h0)
    subst h1
    rw [if_pos hs]
  · rw [if_neg hs] at h0
    rcases hu : S_update m with e | s
    · rw [hu] at h0
      have h' : (Except.error e : Except String ((Gen → Option S) × Nat))
          = .ok (m1, k) := h0
      exact absurd h' (by simp)
    · rw [hu] at h0
      have h' : Except.ok (hinsert m (succ g) s, 1) = Except.ok (m1, k) := h0
      have h1 : hinsert m (succ g) s = m1 := congrArg Prod.fst (Except.ok.inj h')
      subst h1
      have hs' : has_state (hinsert m (succ g) s) (succ g) = true := by
        simp [has_state, hinsert]
      rw [if_pos hs']

/-- C4 witness: a concrete first update stores 7 under generation 1; the
second call returns the same map with zero invocations. -/
theorem C4_witness :
    Cell.update (fun n => n + 1) (fun _ => Except.ok (7 : Nat)) 0
        (hinsert (fun _ => (none : Option Nat)) 1 7)
      = .ok (hinsert (fun _ => (none : Option Nat)) 1 7, 0) :=
  C4_update_idempotent (fun n => n + 1) (fun _ => Except.ok 7) 0 (fun _ => none) _ 1 rfl

/-- C5 (confirmed): join makes membership mutual, re-joining two already
mutually connected cells leaves the neighbor map unchanged, and any
sequence of joins starting from a symmetric neighbor map (such as the
all-empty one) keeps neighbor membership symmetric. -/
theorem C5_join_symmetric {α : Type} [DecidableEq α] (f : α → Finset α) (a b : α) :
    (b ∈ join f a b a ∧ a ∈ join f a b b) ∧
    (b ∈ f a → a ∈ f b → join f a b = f) ∧
    (∀ ps : List (α × α), (∀ x y, x ∈ f y ↔ y ∈ f x) →
      ∀ x y, x ∈ ps.foldl (fun g p => join g p.1 p.2) f y
        ↔ y ∈ ps.foldl (fun g p => join g p.1 p.2) f x) := by
  refine ⟨⟨?_, ?_⟩, ?_, ?_⟩
  · rw [mem_join]; tauto
  · rw [mem_join]; tauto
  · intro hb ha
    funext x
    show (if x = b then insert a (if x = a then insert b (f x) else f x)
        else (if x = a then insert b (f x) else f x)) = f x
    by_cases hxb : x = b
    · rw [if_pos hxb]
      by_cases hxa : x = a
      · rw [if_pos hxa]
        subst hxa
        subst hxb
        rw [Finset.insert_eq_self.mpr hb, Finset.insert_eq_self.mpr hb]
      · rw [if_neg hxa]
        subst hxb
        rw [Finset.insert_eq_self.mpr ha]
    · rw [if_neg hxb]
      by_cases hxa : x = a
      · rw [if_pos hxa]
        subst hxa
        rw [Finset.insert_eq_self.mpr hb]
      · rw [if_neg hxa]
  · exact fun ps => foldl_join_symm ps f

/-- C5 witness: the theorem applied to the empty neighbor map on cells 0
and 1. -/
theorem C5_witness :
    (1 ∈ join (fun _ => (∅ : Finset Nat)) 0 1 0 ∧
      0 ∈ join (fun _ => (∅ : Finset Nat)) 0 1 1) ∧
    (1 ∈ (fun _ => (∅ : Finset Nat)) 0 → 0 ∈ (fun _ => (∅ : Finset Nat)) 1 →
      join (fun _ => (∅ : Finset Nat)) 0 1 = fun _ => (∅ : Finset Nat)) ∧
    (∀ ps : List (Nat × Nat),
      (∀ x y, x ∈ (fun _ => (∅ : Finset Nat)) y ↔ y ∈ (fun _ => (∅ : Finset Nat)) x) →
      ∀ x y, x ∈ ps.foldl (fun g p => join g p.1 p.2) (fun _ => (∅ : Finset Nat)) y
        ↔ y ∈ ps.foldl (fun g p => join g p.1 p.2) (fun _ => (∅ : Finset Nat)) x) :=
  C5_join_symmetric (fun _ => (∅ : Finset Nat)) 0 1

/-- C6 (confirmed): whenever Torus::new with Orthogonal tiling returns a
torus and every extent is at least 3, the cell at flat index i was created
with coordinates decode dims i, its neighbor set has exactly 2n distinct
members, and they are exactly the row-major indices of the cells one step
forward and one step backward of those coordinates along each axis, modulo
that axis extent (the targets list orthTargets). -/
theorem C6_orthogonal_neighbors (dims : List Nat) (T : Torus)
    (hT : Torus.new Tiling.Orthogonal dims = .ok T) (h3 : ∀ d ∈ dims, 3 ≤ d) :
    ∀ i, i < T.cells.length →
      T.cells.getD i [] = decode dims i ∧
      (T.neighbors i).card = 2 * dims.length ∧
      (∀ x, x ∈ T.neighbors i ↔ x ∈ orthTargets dims (decode dims i)) := by
  obtain ⟨F, hconn, rfl⟩ := Torus_new_ok hT
  by_cases hne : dims = []
  · subst hne
    intro i hi
    have hzero : (Torus.mk Tiling.Orthogonal [] (create_cells []) F).cells.length = 0 := rfl
    omega
  · have hpos : ∀ d ∈ dims, 0 < d := fun d hd => by have := h3 d hd; omega
    have hlen : (create_cells dims).length = prodL dims := create_cells_length dims hne
    have hconn' : connect_orthogonally dims (prodL dims) (fun _ => ∅) = .ok F := by
      have h0 : connFor Tiling.Orthogonal dims
          = connect_orthogonally dims (create_cells dims).length (fun _ => ∅) := rfl
      rw [h0, hlen] at hconn
      exact hconn
    have hchar := connect_orthogonally_char hpos hconn'
    intro i hi
    have hiN : i < prodL dims := by
      have hcells : (Torus.mk Tiling.Orthogonal dims (create_cells dims) F).cells
          = create_cells dims := rfl
      rw [hcells, hlen] at hi
      exact hi
    obtain ⟨hin, hrow⟩ := rowIndex_decode hpos i hiN
    have hmem : ∀ x, x ∈ (Torus.mk Tiling.Orthogonal dims (create_cells dims) F).neighbors i
        ↔ x ∈ orthTargets dims (decode dims i) := by
      intro x
      have hnb : (Torus.mk Tiling.Orthogonal dims (create_cells dims) F).neighbors = F := rfl
      rw [hnb, hchar x i]
      simp [hiN]
    refine ⟨?_, ?_, hmem⟩
    · have hcells : (Torus.mk Tiling.Orthogonal dims (create_cells dims) F).cells
          = create_cells dims := rfl
      rw [hcells]
      exact create_cells_getD hne hiN
    · have hset : (Torus.mk Tiling.Orthogonal dims (create_cells dims) F).neighbors i
          = (orthTargets dims (decode dims i)).toFinset := by
        apply Finset.ext
        intro x
        rw [hmem x, List.mem_toFinset]
      rw [hset, List.toFinset_card_of_nodup (orthTargets_nodup hin h3), orthTargets_length]

/-- C6 witness: the 1-dimensional 3-torus; its cell 0 has 2 neighbors,
cells 1 and 2. -/
theorem C6_witness :
    (torusOf Tiling.Orthogonal [3]).cells.getD 0 [] = decode [3] 0 ∧
    ((torusOf Tiling.Orthogonal [3]).neighbors 0).card = 2 * ([3] : List Nat).length ∧
    (∀ x, x ∈ (torusOf Tiling.Orthogonal [3]).neighbors 0
      ↔ x ∈ orthTargets [3] (decode [3] 0)) :=
  C6_orthogonal_neighbors [3] (torusOf Tiling.Orthogonal [3]) rfl (by decide) 0 (by decide)

/-- C7 (confirmed): Torus::new with Hexagons tiling fails with an error
(and hence yields no torus to the caller) whenever the dimension vector
does not have exactly two entries or contains an odd extent. -/
theorem C7_hexagons_precondition (dims : List Nat)
    (h : dims.length ≠ 2 ∨ ∃ d ∈ dims, d % 2 = 1) :
    ∃ e, Torus.new Tiling.Hexagons dims = .error e := by
  rw [Torus_new_eq]
  have hc : ∃ e, connFor Tiling.Hexagons dims = .error e := by
    show ∃ e, connect_hexagons dims (create_cells dims).length (fun _ => ∅) = .error e
    unfold connect_hexagons
    by_cases h2 : dims.length ≠ 2
    · rw [if_pos h2]
      exact ⟨_, rfl⟩
    · rw [if_neg h2]
      push_neg at h2
      rcases h with h | ⟨d, hd, hodd⟩
      · exact absurd h2 h
      · obtain ⟨a, b, rfl⟩ := List.length_eq_two.mp h2
        have hcase : a % 2 = 1 ∨ b % 2 = 1 := by
          rcases List.mem_cons.mp hd with rfl | hd'
          · exact Or.inl hodd
          · rcases List.mem_cons.mp hd' with rfl | hd''
            · exact Or.inr hodd
            · simp at hd''
        have hget : ([a, b] : List Nat).getD 0 0 % 2 = 1
            ∨ ([a, b] : List Nat).getD 1 0 % 2 = 1 := by simpa using hcase
        rw [if_pos hget]
        exact ⟨_, rfl⟩
  obtain ⟨e, he⟩ := hc
  rw [he]
  exact ⟨e, rfl⟩

/-- C7 witness: the theorem applied at dims = [2, 3], whose second extent
is odd. -/
theorem C7_witness : ∃ e, Torus.new Tiling.Hexagons [2, 3] = .error e :=
  C7_hexagons_precondition [2, 3] (Or.inr ⟨3, by simp, by decide⟩)

/-- C8 (confirmed): update_all sweeps the cells in flat index order; it
reports no error exactly when every per-cell update succeeds, and on the
first failing cell it reports that cell's error while the failing cell and
every cell after it keep their previous state (only the cells before the
failure were updated; the list keeps its length). -/
theorem C8_update_all_spec {Gen S : Type} [DecidableEq Gen] (succ : Gen → Gen)
    (S_update : Nat → (Gen → Option S) → Except String S) (g : Gen)
    (cells : List (Gen → Option S)) :
    ((update_all succ S_update g cells 0).2 = none ↔
      ∀ j, (h : j < cells.length) →
        ∃ r, Cell.update succ (S_update j) g (cells.get ⟨j, h⟩) = .ok r) ∧
    (∀ j, (hj : j < cells.length) →
      (∀ j', (hj' : j' < j) →
        ∃ r, Cell.update succ (S_update j') g (cells.get ⟨j', by omega⟩) = .ok r) →
      ∀ e, Cell.update succ (S_update j) g (cells.get ⟨j, hj⟩) = .error e →
        (update_all succ S_update g cells 0).2 = some e ∧
        (update_all succ S_update g cells 0).1.drop j = cells.drop j ∧
        (update_all succ S_update g cells 0).1.length = cells.length) := by
  constructor
  · rw [update_all_none_iff]
    constructor
    · intro hall j hj
      have hh := hall j hj
      rwa [Nat.zero_add] at hh
    · intro hall j hj
      rw [Nat.zero_add]
      exact hall j hj
  · intro j hj hprev e hfail
    apply update_all_first_error succ S_update g cells 0 j hj
    · intro j' hj'
      rw [Nat.zero_add]
      exact hprev j' hj'
    · rw [Nat.zero_add]
      exact hfail

/-- Three fresh cells for the update_all witness. -/
def exCells : List (Nat → Option Nat) := [fun _ => none, fun _ => none, fun _ => none]

/-- A State update function that fails on cell 1 only. -/
def exUpd : Nat → (Nat → Option Nat) → Except String Nat :=
  fun i _ => if i = 1 then .error "boom" else .ok 5

/-- C8 witness: sweeping the three cells with a rule failing on cell 1
stops there with that error, leaving cells 1 and 2 unchanged. -/
theorem C8_witness :
    (update_all (fun n => n + 1) exUpd 0 exCells 0).2 = some "boom" ∧
    (update_all (fun n => n + 1) exUpd 0 exCells 0).1.drop 1 = exCells.drop 1 ∧
    (update_all (fun n => n + 1) exUpd 0 exCells 0).1.length = exCells.length :=
  (C8_update_all_spec (fun n => n + 1) exUpd 0 exCells).2 1 (by decide)
    (fun j' hj' => by
      have h0 : j' = 0 := by omega
      subst h0
      exact ⟨(hinsert (fun _ => none) 1 5, 1), rfl⟩)
    "boom" rfl

/-- C9 (amended): for every nonempty dimension vector for which Torus::new
succeeds, the torus holds exactly product(dimensions) cells, and reducing
the constant increment function over the torus also yields
product(dimensions).  The amendment excludes the empty dimension vector,
for which the product is 1 but the torus is created empty. -/
theorem C9_cells_cardinality (t : Tiling) (dims : List Nat) (T : Torus)
    (h : Torus.new t dims = .ok T) (hne : dims ≠ []) :
    T.cells.length = cardinality dims ∧
    T.reduce 0 (fun _ _ a => a + 1) = cardinality dims := by
  obtain ⟨F, hconn, rfl⟩ := Torus_new_ok h
  rw [cardinality_eq_prodL]
  have hcl : (Torus.mk t dims (create_cells dims) F).cells = create_cells dims := rfl
  constructor
  · rw [hcl]
    exact create_cells_length dims hne
  · have hred : (Torus.mk t dims (create_cells dims) F).reduce 0 (fun _ _ a => a + 1)
        = (create_cells dims).foldl (fun a _ => a + 1) 0 := rfl
    rw [hred, foldl_count, Nat.zero_add]
    exact create_cells_length dims hne

/-- C9 counterexample: with the empty dimension vector, Torus::new
(Orthogonal) succeeds but creates 0 cells and reduce counts 0, while
product(dimensions) is the empty product 1. -/
theorem C9_empty_dims_cex :
    (Torus.new Tiling.Orthogonal []).map
        (fun T => (T.cells.length, T.reduce 0 (fun _ _ a => a + 1))) = .ok (0, 0) ∧
    cardinality [] = 1 :=
  ⟨rfl, rfl⟩

/-- C9 witness: the amended theorem applied to the 1-dimensional 2-torus. -/
theorem C9_witness :
    (torusOf Tiling.Orthogonal [2]).cells.length = cardinality [2] ∧
    (torusOf Tiling.Orthogonal [2]).reduce 0 (fun _ _ a => a + 1) = cardinality [2] :=
  C9_cells_cardinality Tiling.Orthogonal [2] (torusOf Tiling.Orthogonal [2]) rfl (by simp)

/-- C10 (confirmed): in a successfully built Orthogonal torus, an axis of
extent 1 joins every cell to itself, so each cell appears in its own
neighbor set; and along an axis of extent 2 the backward offset
dims[k] - 1 equals the forward offset 1, so the two joins of that axis
reach one and the same cell (one distinct neighbor from that axis). -/
theorem C10_degenerate_axes (dims : List Nat) (T : Torus)
    (hT : Torus.new Tiling.Orthogonal dims = .ok T) :
    ∀ k, k < dims.length →
      (dims.getD k 0 = 1 → ∀ i, i < T.cells.length → i ∈ T.neighbors i) ∧
      (dims.getD k 0 = 2 → ∀ i, i < T.cells.length →
        ({rowIndex (offsetCoord dims (decode dims i) k (dims.getD k 0 - 1)) dims,
          rowIndex (offsetCoord dims (decode dims i) k 1) dims} : Finset Nat).card = 1) := by
  obtain ⟨F, hconn, rfl⟩ := Torus_new_ok hT
  intro k hk
  constructor
  · intro hd1 i hi
    by_cases h0 : 0 ∈ dims
    · exfalso
      have hz : create_cells dims = [] := create_cells_zero dims h0
      have hzero : (Torus.mk Tiling.Orthogonal dims (create_cells dims) F).cells.length
          = 0 := by
        rw [show (Torus.mk Tiling.Orthogonal dims (create_cells dims) F).cells
            = create_cells dims from rfl, hz]
        rfl
      omega
    · have hpos : ∀ d ∈ dims, 0 < d := by
        intro d hd
        rcases Nat.eq_zero_or_pos d with rfl | hp
        · exact absurd hd h0
        · exact hp
      have hne : dims ≠ [] := by
        intro hh
        subst hh
        simp at hk
      have hlen := create_cells_length dims hne
      have hconn' : connect_orthogonally dims (prodL dims) (fun _ => ∅) = .ok F := by
        have h0' : connFor Tiling.Orthogonal dims
            = connect_orthogonally dims (create_cells dims).length (fun _ => ∅) := rfl
        rw [h0', hlen] at hconn
        exact hconn
      have hchar := connect_orthogonally_char hpos hconn'
      have hiN : i < prodL dims := by
        have hcells : (Torus.mk Tiling.Orthogonal dims (create_cells dims) F).cells
            = create_cells dims := rfl
        rw [hcells, hlen] at hi
        exact hi
      obtain ⟨hin, hrow⟩ := rowIndex_decode hpos i hiN
      have hnb : (Torus.mk Tiling.Orthogonal dims (create_cells dims) F).neighbors
          = F := rfl
      rw [hnb, hchar i i]
      refine ⟨hiN, ?_⟩
      rw [mem_orthTargets]
      refine ⟨k, hk, Or.inr ?_⟩
      have hck : (decode dims i).getD k 0 < dims.getD k 0 := ((inB_iff _ _).mp hin).2 k hk
      rw [hd1] at hck
      have hck0 : (decode dims i).getD k 0 = 0 := by omega
      have hoc : offsetCoord dims (decode dims i) k 1 = decode dims i := by
        unfold offsetCoord
        rw [hck0, hd1]
        rw [show (0 + 1) % 1 = 0 from rfl, ← hck0]
        exact set_getD_self _ k (by rw [inB_length hin]; omega)
      rw [hoc, hrow]
  · intro hd2 i hi
    have hoff : dims.getD k 0 - 1 = 1 := by omega
    rw [hoff]
    simp

/-- C10 witness: the torus with dimensions [1, 2]: along axis 0 (extent 1)
every cell is its own neighbor; along axis 1 (extent 2) the two joined
indices coincide. -/
theorem C10_witness :
    (((([1, 2] : List Nat).getD 0 0 = 1 →
        ∀ i, i < (torusOf Tiling.Orthogonal [1, 2]).cells.length →
          i ∈ (torusOf Tiling.Orthogonal [1, 2]).neighbors i) ∧
      (([1, 2] : List Nat).getD 0 0 = 2 →
        ∀ i, i < (torusOf Tiling.Orthogonal [1, 2]).cells.length →
          ({rowIndex (offsetCoord [1, 2] (decode [1, 2] i) 0
              (([1, 2] : List Nat).getD 0 0 - 1)) [1, 2],
            rowIndex (offsetCoord [1, 2] (decode [1, 2] i) 0 1) [1, 2]} : Finset Nat).card
            = 1))) ∧
    ((([1, 2] : List Nat).getD 1 0 = 1 →
        ∀ i, i < (torusOf Tiling.Orthogonal [1, 2]).cells.length →
          i ∈ (torusOf Tiling.Orthogonal [1, 2]).neighbors i) ∧
      (([1, 2] : List Nat).getD 1 0 = 2 →
        ∀ i, i < (torusOf Tiling.Orthogonal [1, 2]).cells.length →
          ({rowIndex (offsetCoord [1, 2] (decode [1, 2] i) 1
              (([1, 2] : List Nat).getD 1 0 - 1)) [1, 2],
            rowIndex (offsetCoord [1, 2] (decode [1, 2] i) 1 1) [1, 2]} : Finset Nat).card
            = 1)) :=
  ⟨C10_degenerate_axes [1, 2] (torusOf Tiling.Orthogonal [1, 2]) rfl 0 (by decide),
   C10_degenerate_axes [1, 2] (torusOf Tiling.Orthogonal [1, 2]) rfl 1 (by decide)⟩

end QuantTorus
